import Mathlib

/-!
Verification development for the substitution engine (dace/sdfg/replace.py) and the
interstate transformations (const_symbol_to_map.py, gpu_transform_sdfg.py).
Each Python function is shallowly embedded as an executable Lean definition; machine
dictionaries become association lists that keep insertion order, and the symbolic
algebra library is embedded as a small expression language with the documented
substitution semantics of its subs method.
-/

set_option maxRecDepth 4000

namespace DaceModel

/-- Symbolic expressions, embedding the expressions produced by
`symbolic.pystr_to_symbolic`: variables (sympy symbols, whose names may contain
dots for attribute accesses), integer literals, sums and products. -/
inductive Expr where
  | var : String → Expr
  | intLit : Int → Expr
  | add : Expr → Expr → Expr
  | mul : Expr → Expr → Expr
  deriving DecidableEq, Repr

/-- The names of the free symbols of an expression (`sym.free_symbols`, as strings). -/
def Expr.freeSyms : Expr → List String
  | .var s => [s]
  | .intLit _ => []
  | .add a b => a.freeSyms ++ b.freeSyms
  | .mul a b => a.freeSyms ++ b.freeSyms

/-- One elementary replacement `rv._subs(old, new)` of the algebra library:
every occurrence of the symbol `old` becomes `new`. -/
def subsOne (old : String) (new : Expr) : Expr → Expr
  | .var s => if s = old then new else .var s
  | .intLit n => .intLit n
  | .add a b => .add (subsOne old new a) (subsOne old new b)
  | .mul a b => .mul (subsOne old new a) (subsOne old new b)

/-- Lexicographic comparison of character lists, the order used to put symbol
names in canonical order. -/
def charListLt : List Char → List Char → Bool
  | [], [] => false
  | [], _ :: _ => true
  | _ :: _, [] => false
  | a :: as, b :: bs => if a = b then charListLt as bs else decide (a < b)

/-- Insertion step for the canonical ordering the algebra library imposes on the
keys of an unordered replacement dictionary. -/
def insertByKey (p : String × Expr) : List (String × Expr) → List (String × Expr)
  | [] => [p]
  | q :: qs => if charListLt p.1.data q.1.data then p :: q :: qs else q :: insertByKey p qs

/-- Canonical ordering of the pairs of a replacement dictionary (the library sorts
the keys of an unordered mapping before substituting). -/
def canonicalOrder : List (String × Expr) → List (String × Expr)
  | [] => []
  | p :: ps => insertByKey p (canonicalOrder ps)

/-- `sym.subs(mapping)` of the algebra library for an unordered dictionary:
the pairs are put in a canonical key order and then applied ONE AFTER THE OTHER
(the simultaneous mode is a non-default keyword the engine does not pass). -/
def sympyDictSubs (e : Expr) (repl : List (String × Expr)) : Expr :=
  (canonicalOrder repl).foldl (fun acc p => subsOne p.1 p.2 acc) e

/-- First-match lookup in an association list (Python dictionary access). -/
def alookup {α : Type} (k : String) : List (String × α) → Option α
  | [] => none
  | p :: ps => if p.1 = k then some p.2 else alookup k ps

/-- Simultaneous substitution, the reference semantics the specification ascribes
to the engine: every variable is replaced in one pass, results are never
substituted again. -/
def simultSubs (repl : List (String × Expr)) : Expr → Expr
  | .var s =>
    match alookup s repl with
    | some e => e
    | none => .var s
  | .intLit n => .intLit n
  | .add a b => .add (simultSubs repl a) (simultSubs repl b)
  | .mul a b => .mul (simultSubs repl a) (simultSubs repl b)

/-- Split a character list at every occurrence of `c` (Python `str.split`). -/
def splitOnChar (c : Char) : List Char → List (List Char)
  | [] => [[]]
  | a :: as =>
    let r := splitOnChar c as
    if a = c then [] :: r
    else
      match r with
      | [] => [[a]]
      | g :: gs => (a :: g) :: gs

/-- Join token groups with a dot character (Python `'.'.join(tokens)`). -/
def joinWithDot : List (List Char) → List Char
  | [] => []
  | [g] => g
  | g :: gs => g ++ '.' :: joinWithDot gs

/-- The dotted prefixes a free symbol name contributes in `_internal_replace`
(replace.py lines 28-32): for a name with dots, every proper dotted prefix. -/
def dotPrefixes (s : String) : List String :=
  if s.data.contains '.' then
    let tokens := splitOnChar '.' s.data
    ((List.range tokens.length).drop 1).map (fun i => ⟨joinWithDot (tokens.take i)⟩)
  else []

/-- The free symbol names extended with their dotted prefixes, the set `fsyms`
built by replace.py lines 26-32. -/
def extendedFreeSyms (e : Expr) : List String :=
  e.freeSyms ++ e.freeSyms.foldr (fun s acc => dotPrefixes s ++ acc) []

/-- `_internal_replace(sym, symrepl)` (replace.py lines 21-37): collect the free
symbol names extended with dotted prefixes, keep only the relevant pairs of the
mapping, and if any remain apply the subs method of the algebra library. -/
def internal_replace (sym : Expr) (symrepl : List (String × Expr)) : Expr :=
  let newrepl := symrepl.filter (fun p => (extendedFreeSyms sym).contains p.1)
  if newrepl.isEmpty then sym else sympyDictSubs sym newrepl

example :
    internal_replace (Expr.add (.var "a") (.var "b")) [("a", Expr.var "b"), ("b", Expr.var "a")]
      = Expr.add (.var "a") (.var "a") := by decide

example :
    simultSubs [("a", Expr.var "b"), ("b", Expr.var "a")] (Expr.add (.var "a") (.var "b"))
      = Expr.add (.var "b") (.var "a") := by decide

example : dotPrefixes "x.y.z" = ["x", "x.y"] := by decide

/-- `symbolic.pystr_to_symbolic` applied to a plain name.  Modelled from the spec:
the algebra library parses an identifier into the corresponding symbol. -/
def pystr_to_symbolic (s : String) : Expr := .var s

/-- The embedded-code dialects (`dtypes.Language`). -/
inductive Language where
  | Python | CPP | OpenCL | MLIR
  deriving DecidableEq, Repr

/-- The value held by a code block: a raw text body, a list of parsed statements
of the native dialect (each modelled as an expression), or nothing. -/
inductive CodeVal where
  | strCode : String → CodeVal
  | astCode : List Expr → CodeVal
  | noneCode : CodeVal
  deriving DecidableEq, Repr

/-- `properties.CodeBlock`: a code value together with its language. -/
structure CodeBlock where
  code : CodeVal
  language : Language
  deriving DecidableEq, Repr

/-- A word character in the sense of the regular expression used by
`tokenize_cpp` (replace.py line 18). -/
def isWordChar (c : Char) : Bool := c.isAlphanum || c = '_'

/-- Maximal runs of word characters in a character list: the matches of the
word-boundary regular expression of `tokenize_cpp`. -/
def tokenizeCppChars : List Char → List (List Char)
  | [] => []
  | c :: cs =>
    let r := tokenizeCppChars cs
    if isWordChar c then
      match cs with
      | [] => [[c]]
      | c' :: _ =>
        if isWordChar c' then
          match r with
          | g :: gs => (c :: g) :: gs
          | [] => [[c]]
        else [c] :: r
    else r

/-- `tokenize_cpp.findall(code)` (replace.py lines 18 and 105). -/
def tokenize_cpp (s : String) : List String :=
  (tokenizeCppChars s.data).map (fun g => (⟨g⟩ : String))

/-- `cppunparse.pyexpr2cpp` on a replacement name.  Modelled from the spec:
the new name rendered in the foreign dialect; an identifier renders as itself. -/
def pyexpr2cpp (s : String) : String := s

/-- `ASTFindReplace(repl).visit` on a statement of the native dialect.
Modelled from the spec: an AST visitor that renames identifiers according to the
mapping, in one pass. -/
def astFindReplace (repl : List (String × String)) : Expr → Expr
  | .var s =>
    match alookup s repl with
    | some n => .var n
    | none => .var s
  | .intLit n => .intLit n
  | .add a b => .add (astFindReplace repl a) (astFindReplace repl b)
  | .mul a b => .mul (astFindReplace repl a) (astFindReplace repl b)

/-- The Python exceptions the embedded fragments can raise. -/
inductive PyError where
  | nameError | syntaxError | keyError | assertionError
  deriving DecidableEq, Repr

instance {e a : Type} [DecidableEq e] [DecidableEq a] : DecidableEq (Except e a) := fun x y =>
  match x, y with
  | .ok u, .ok v =>
    if h : u = v then .isTrue (by rw [h]) else .isFalse (fun hh => by cases hh; exact h rfl)
  | .error u, .error v =>
    if h : u = v then .isTrue (by rw [h]) else .isFalse (fun hh => by cases hh; exact h rfl)
  | .ok _, .error _ => .isFalse (fun hh => by cases hh)
  | .error _, .ok _ => .isFalse (fun hh => by cases hh)

/-- `dace.nodes.Tasklet`: the properties relevant to substitution. -/
structure Tasklet where
  label : String
  code : CodeBlock
  in_connectors : List String
  out_connectors : List String
  ignored_symbols : Finset String
  deriving DecidableEq

/-- The shadow-binding statement prepended for one replaced name
(replace.py line 111). -/
def bindingLine (p : String × String) : String :=
  "auto " ++ p.1 ++ " = " ++ pyexpr2cpp p.2 ++ ";\n"

/-- `replace_in_codeblock(codeblock, repl, node)` (replace.py lines 99-127).
For non-empty C++ text, one local shadow binding is prepended per mapped name
that occurs as a token, and those names are added to the ignored symbols of the
tasklet; for non-empty text of any other language the warning call raises a
NameError because it reads loop variables that were never bound in that branch;
otherwise parsed statements are rewritten by the AST visitor. -/
def replace_in_codeblock (cb : CodeBlock) (repl : List (String × String))
    (node : Option Tasklet) : Except PyError (CodeBlock × Option Tasklet) :=
  match cb.code with
  | .strCode s =>
    if s = "" then
      -- an empty text body falls through to the statement branch, which
      -- iterates over the empty sequence and does nothing
      .ok (cb, node)
    else if cb.language = .CPP then
      let tokenized := tokenize_cpp s
      let step := repl.foldl
        (fun (acc : String × Finset String) p =>
          if tokenized.contains p.1 then (bindingLine p ++ acc.1, insert p.1 acc.2) else acc)
        ("", ∅)
      if step.1 = "" then .ok (cb, node)
      else
        .ok ({ cb with code := .strCode (step.1 ++ s) },
             node.map (fun t => { t with ignored_symbols := t.ignored_symbols ∪ step.2 }))
    else
      -- warnings.warn interpolates `name` and `new_name`, locals of the loop in
      -- the C++ branch that was never entered here: NameError
      .error .nameError
  | .astCode stmts => .ok ({ cb with code := .astCode (stmts.map (astFindReplace repl)) }, node)
  | .noneCode => .ok (cb, node)

/-- The nodes of a dataflow state relevant to substitution: access nodes
(data-name property) and tasklets (code property). -/
inductive Node where
  | access : String → Node
  | tasklet : Tasklet → Node
  deriving DecidableEq

/-- The shadowing rule of replace.py lines 156-161: drop from the mapping every
name that is an input or output connector of the node. -/
def reducedRepl (t : Tasklet) (repl : List (String × String)) : List (String × String) :=
  repl.filter (fun p => !(t.in_connectors.contains p.1 || t.out_connectors.contains p.1))

/-- The pairs of the reduced mapping whose name occurs as a token of the code
text: exactly those receive a shadow binding (replace.py lines 107-113). -/
def activeRepl (t : Tasklet) (s : String) (repl : List (String × String)) :
    List (String × String) :=
  (reducedRepl t repl).filter (fun p => (tokenize_cpp s).contains p.1)

/-- `replace_properties_dict(node, repl, symrepl)` (replace.py lines 131-169)
specialised to the properties carried by the node kinds of the model: the
data-name property of an access node is replaced on exact match; the code
property of a tasklet is rewritten after removing connector names from the
mapping (shadowing rule, lines 156-161). -/
def replace_properties_dict (node : Node) (repl : List (String × String))
    (_symrepl : List (String × Expr)) : Except PyError Node :=
  match node with
  | .access dataName =>
    match alookup dataName repl with
    | some v => .ok (.access v)
    | none => .ok (.access dataName)
  | .tasklet t =>
    match replace_in_codeblock t.code (reducedRepl t repl) (some t) with
    | .ok (cb, some t') => .ok (.tasklet { t' with code := cb })
    | .ok (cb, none) => .ok (.tasklet { t with code := cb })
    | .error e => .error e

/-- A subset: one symbolic range (begin, end, step) per dimension. -/
def Subset := List (Expr × Expr × Expr)

instance : DecidableEq Subset := inferInstanceAs (DecidableEq (List (Expr × Expr × Expr)))

/-- The free symbol names of a subset. -/
def subsetFreeSyms (s : Subset) : List String :=
  s.foldr (fun d acc => d.1.freeSyms ++ d.2.1.freeSyms ++ d.2.2.freeSyms ++ acc) []

/-- `_replsym` on a subset (replace.py lines 40-51): every component of every
dimension goes through `_internal_replace`. -/
def replsymSubset (s : Subset) (symrepl : List (String × Expr)) : Subset :=
  s.map (fun d => (internal_replace d.1 symrepl,
                   internal_replace d.2.1 symrepl, internal_replace d.2.2 symrepl))

/-- `dace.memlet.Memlet`: the fields touched by `replace_dict`. -/
structure Memlet where
  data : Option String
  subset : Option Subset
  other_subset : Option Subset
  volume : Expr
  deriving DecidableEq

/-- Whether the mapping has a key among the given free symbol names
(the `repl.keys() & ... .free_symbols` tests of replace.py lines 78-82). -/
def keysIntersect (repl : List (String × String)) (syms : List String) : Bool :=
  repl.any (fun p => syms.contains p.1)

/-- Lines 76-77 of replace.py: the data name of a memlet, replaced on match. -/
def memletReplaceData (m : Memlet) (repl : List (String × String)) : Memlet :=
  match m.data with
  | some d =>
    match alookup d repl with
    | some v => { m with data := some v }
    | none => m
  | none => m

/-- Lines 78-79 of replace.py: the subset, rewritten when a key is free in it. -/
def memletReplaceSubset (m : Memlet) (repl : List (String × String))
    (symrepl : List (String × Expr)) : Memlet :=
  match m.subset with
  | some s =>
    if keysIntersect repl (subsetFreeSyms s) then { m with subset := some (replsymSubset s symrepl) }
    else m
  | none => m

/-- Lines 80-81 of replace.py: the other subset, rewritten likewise. -/
def memletReplaceOther (m : Memlet) (repl : List (String × String))
    (symrepl : List (String × Expr)) : Memlet :=
  match m.other_subset with
  | some s =>
    if keysIntersect repl (subsetFreeSyms s) then
      { m with other_subset := some (replsymSubset s symrepl) }
    else m
  | none => m

/-- Lines 82-83 of replace.py: the volume, rewritten when a key is free in it. -/
def memletReplaceVolume (m : Memlet) (repl : List (String × String))
    (symrepl : List (String × Expr)) : Memlet :=
  if keysIntersect repl m.volume.freeSyms then { m with volume := internal_replace m.volume symrepl }
  else m

/-- The memlet part of `replace_dict` (replace.py lines 74-83): the four
statements applied in order. -/
def memletReplace (m : Memlet) (repl : List (String × String))
    (symrepl : List (String × Expr)) : Memlet :=
  memletReplaceVolume (memletReplaceOther (memletReplaceSubset (memletReplaceData m repl)
    repl symrepl) repl symrepl) repl symrepl

/-- A state subgraph view: its nodes and the memlets of its edges. -/
structure Graph where
  nodes : List Node
  edges : List Memlet
  deriving DecidableEq

/-- `replace_dict(subgraph, repl)` (replace.py lines 54-83): properties of every
node, then the memlet of every edge. -/
def replace_dict (g : Graph) (repl : List (String × String)) : Except PyError Graph := do
  let symrepl := repl.map (fun p => (p.1, pystr_to_symbolic p.2))
  let nodes ← g.nodes.mapM (fun n => replace_properties_dict n repl symrepl)
  let edges := g.edges.map (fun m => memletReplace m repl symrepl)
  return { nodes := nodes, edges := edges }

/-- `replace(subgraph, name, new_name)` (replace.py lines 86-96): skipped
entirely when the two names are equal. -/
def replace (g : Graph) (name new_name : String) : Except PyError Graph :=
  if name = new_name then .ok g else replace_dict g [(name, new_name)]

example :
    replace_in_codeblock ⟨.strCode "y = x + 1;", .OpenCL⟩ [("x", "z")] none
      = .error .nameError := by decide

/-- Python dictionary assignment `d[k] = v`: replace the value in place when the
key is present, otherwise append the new entry at the end. -/
def aset {α : Type} (k : String) (v : α) : List (String × α) → List (String × α)
  | [] => [(k, v)]
  | p :: ps => if p.1 = k then (k, v) :: ps else p :: aset k v ps

/-- Python dictionary deletion `del d[k]` (the key is present in every use below). -/
def adel {α : Type} (k : String) : List (String × α) → List (String × α)
  | [] => []
  | p :: ps => if p.1 = k then ps else p :: adel k ps

/-- The data reference of an access node or memlet under the reduced-scope
rename (replace.py lines 196-203 and 206-215): exact match first, otherwise a
dotted name whose first component matches has only the prefix substituted. -/
def renameDataName (repl : List (String × String)) (d : String) : String :=
  match alookup d repl with
  | some v => v
  | none =>
    if d.data.contains '.' then
      match splitOnChar '.' d.data with
      | [] => d
      | p0 :: rest => match alookup (⟨p0⟩ : String) repl with
        | some v => v ++ "." ++ (⟨joinWithDot rest⟩ : String)
        | none => d
    else d

/-- The payload carried by a control edge of the top-level region. -/
structure InterstateEdgeData where
  assignments : List (String × Expr)
  condition : Expr
  deriving DecidableEq

/-- `InterstateEdge.replace_dict(repl, replace_keys=False)`.  Modelled from the
spec: name occurrences embedded in the condition and in the assignment values
are renamed; assignment keys are left alone. -/
def interstateEdgeReplaceDict (e : InterstateEdgeData) (repl : List (String × String)) :
    InterstateEdgeData :=
  { assignments := e.assignments.map (fun p => (p.1, astFindReplace repl p.2))
    condition := astFindReplace repl e.condition }

/-- A state as seen by the reduced-scope rename: the data references of its
access nodes and the data fields of its edge memlets. -/
structure RState where
  accessNodes : List String
  memletData : List (Option String)
  deriving DecidableEq

/-- A whole graph for the reduced-scope rename: descriptor table, constant
table, the states of its control-flow blocks, its control edges, and the meta
accesses of loop or branch conditions. -/
structure RSDFG where
  arrays : List (String × Nat)
  constants_prop : List (String × Nat)
  states : List RState
  interstateEdges : List InterstateEdgeData
  metaAccesses : List Expr
  deriving DecidableEq

/-- The descriptor-repository loop of `replace_datadesc_names` (replace.py
lines 180-186): iterate over a snapshot of the table; for a renamed entry,
delete the old key and assign the stored value to the new key (overwriting any
entry already there), and move a constant entry along. -/
def datadescStep (repl : List (String × String))
    (acc : List (String × Nat) × List (String × Nat)) (p : String × Nat) :
    List (String × Nat) × List (String × Nat) :=
  match alookup p.1 repl with
  | some newName =>
    let arrays' := aset newName p.2 (adel p.1 acc.1)
    let constants' :=
      match alookup p.1 acc.2 with
      | some c => adel p.1 (aset newName c acc.2)
      | none => acc.2
    (arrays', constants')
  | none => acc

def replaceDatadescTables (arrays constants : List (String × Nat))
    (repl : List (String × String)) : List (String × Nat) × List (String × Nat) :=
  arrays.foldl (datadescStep repl) (arrays, constants)

/-- `replace_datadesc_names(sdfg, repl)` (replace.py lines 177-218). -/
def replace_datadesc_names (sdfg : RSDFG) (repl : List (String × String)) : RSDFG :=
  let tables := replaceDatadescTables sdfg.arrays sdfg.constants_prop repl
  { arrays := tables.1
    constants_prop := tables.2
    interstateEdges := sdfg.interstateEdges.map (fun e => interstateEdgeReplaceDict e repl)
    states := sdfg.states.map (fun st =>
      { accessNodes := st.accessNodes.map (renameDataName repl)
        memletData := st.memletData.map (fun d? => d?.map (renameDataName repl)) })
    metaAccesses := sdfg.metaAccesses.map (astFindReplace repl) }

example :
    replace_datadesc_names ⟨[("x", 0), ("y", 1)], [], [], [], []⟩ [("x", "y")]
      = ⟨[("y", 0)], [], [], [], []⟩ := by decide

example : renameDataName [("x", "y")] "x.f" = "y.f" := by decide

/-- The result of parsing an assignment value with `Memlet(v)`: a data name and
an optional access subset.  Modelled from the spec: the value must parse as a
single data access; a plain name carries no subset. -/
structure ParsedMemlet where
  data : String
  subset : Option String
  deriving DecidableEq

/-- `Memlet(v)` on an assignment value, raising a SyntaxError for anything that
is not a single data access.  Modelled from the spec: `name[subset]` parses to a
data access with that subset, a bare name to one without a subset, and any other
expression fails to parse. -/
def parseMemlet (v : String) : Except PyError ParsedMemlet :=
  let l := v.data
  if l.contains '[' then
    match splitOnChar '[' l with
    | [namePart, rest] =>
      if namePart ≠ [] && namePart.all isWordChar && rest.getLast? = some ']' && rest.dropLast ≠ [] then
        .ok ⟨(⟨namePart⟩ : String), some (⟨rest.dropLast⟩ : String)⟩
      else .error .syntaxError
    | _ => .error .syntaxError
  else if l ≠ [] && l.all isWordChar then .ok ⟨v, none⟩
  else .error .syntaxError

/-- A control edge of the graph ConstSymbolToMap is matched against, carrying
its symbol assignments as raw value strings. -/
structure CEdge where
  src : Nat
  dst : Nat
  assignments : List (String × String)
  deriving DecidableEq

/-- A control-flow block, identified by id, with its free symbol names. -/
structure CState where
  id : Nat
  free_symbols : List String
  deriving DecidableEq

/-- The pieces of the owning graph that `can_be_applied` and `apply` consult:
descriptor names, declared symbols (name and type tag), blocks and control
edges. -/
structure CSDFG where
  arrays : List String
  symbols : List (String × Nat)
  states : List CState
  edges : List CEdge
  deriving DecidableEq

/-- `graph.out_edges(state)` for the control-flow graph. -/
def outEdges (sdfg : CSDFG) (sid : Nat) : List CEdge :=
  sdfg.edges.filter (fun e => e.src = sid)

/-- The free symbols of the block with the given id. -/
def stateFreeSyms (sdfg : CSDFG) (sid : Nat) : List String :=
  match sdfg.states.find? (fun s => s.id = sid) with
  | some s => s.free_symbols
  | none => []

/-- The class-scope mutable fields of ConstSymbolToMap
(const_symbol_to_map.py lines 18-19): `symbol_edge = None` and
`map_symbols = \x7b\x7d` are declared once at class level, so they are shared by
every instance and every call and are never reset. -/
structure CSTMScratch where
  symbol_edge : Option CEdge
  map_symbols : List (String × ParsedMemlet)
  deriving DecidableEq

/-- One iteration step of the assignment loop in `can_be_applied`
(const_symbol_to_map.py lines 46-54): keep an assignment whose symbol is free in
the compute block and whose value parses as a data access with a subset into a
known array. -/
def cstmAssignStep (computeFree : List String) (arrays : List String)
    (acc : List (String × ParsedMemlet)) (p : String × String) :
    List (String × ParsedMemlet) :=
  if computeFree.contains p.1 then
    match parseMemlet p.2 with
    | .ok m => if m.subset.isSome && arrays.contains m.data then aset p.1 m acc else acc
    | .error _ => acc
  else acc

/-- `ConstSymbolToMap.can_be_applied(graph, expr_index, sdfg)`
(const_symbol_to_map.py lines 34-55), with the class-scope scratch state made
explicit: it is read and written, never cleared.  Returns the boolean result
together with the scratch state left behind. -/
def can_be_applied (scratch : CSTMScratch) (symbol_state compute_state : Nat)
    (sdfg : CSDFG) : Except PyError (Bool × CSTMScratch) :=
  if (outEdges sdfg compute_state).length ≠ 0 then .ok (false, scratch)
  else
    -- the search loop overwrites symbol_edge only when it finds an edge; a
    -- stale value from an earlier call survives otherwise
    let scratch :=
      match (outEdges sdfg symbol_state).find? (fun e => e.dst = compute_state) with
      | some e => { scratch with symbol_edge := some e }
      | none => scratch
    match scratch.symbol_edge with
    | none => .error .assertionError
    | some e =>
      let computeFree := stateFreeSyms sdfg compute_state
      let ms := e.assignments.foldl (cstmAssignStep computeFree sdfg.arrays) scratch.map_symbols
      .ok (ms.length != 0, { scratch with map_symbols := ms })

/-- `assignments.pop(s)` on a control edge: a KeyError when the key is absent. -/
def assignmentsPop (k : String) (l : List (String × String)) :
    Except PyError (List (String × String)) :=
  if (alookup k l).isSome then .ok (adel k l) else .error .keyError

/-- `sdfg.remove_symbol(s)`.  Modelled from the spec: the symbol-table mutation
primitive removes the entry for the name from the declared-symbol table. -/
def remove_symbol (k : String) (symbols : List (String × Nat)) : List (String × Nat) :=
  adel k symbols

/-- The final loop of `ConstSymbolToMap.apply` (const_symbol_to_map.py lines
106-110): every folded symbol is popped from the control-edge assignments, and
its declaration is removed whenever it is present in the symbol table. -/
def applySymbolCleanup (mapSymbols : List (String × ParsedMemlet)) (edge : CEdge)
    (symbols : List (String × Nat)) : Except PyError (CEdge × List (String × Nat)) :=
  mapSymbols.foldlM
    (fun (acc : CEdge × List (String × Nat)) p => do
      let asg ← assignmentsPop p.1 acc.1.assignments
      let syms := if (alookup p.1 acc.2).isSome then remove_symbol p.1 acc.2 else acc.2
      return ({ acc.1 with assignments := asg }, syms))
    (edge, symbols)

/-- Whether a symbol is still referenced anywhere in the graph, the condition
the specification attaches to removing its declaration: free in some block, or
mentioned by some control-edge assignment. -/
def symbolReferenced (sdfg : CSDFG) (s : String) : Bool :=
  sdfg.states.any (fun st => st.free_symbols.contains s)
  || sdfg.edges.any (fun e => e.assignments.any (fun p => p.1 = s || (tokenize_cpp p.2).contains s))

example : parseMemlet "A_row[i]" = .ok ⟨"A_row", some "i"⟩ := by decide

example : parseMemlet "i + 1" = .error .syntaxError := by decide

example : parseMemlet "A_row" = .ok ⟨"A_row", none⟩ := by decide

/-- `dtypes.StorageType`, restricted to the classes the transformation tests. -/
inductive StorageType where
  | Default | CPU_Heap | CPU_Pinned | GPU_Global | GPU_Shared | Register
  deriving DecidableEq, Repr

/-- A data descriptor as consulted by the device-offload transformation:
storage class, scalar flag, transient flag and shape. -/
structure GDesc where
  storage : StorageType
  isScalar : Bool
  transient : Bool
  shape : List Int
  deriving DecidableEq, Repr

/-- `inode.clone()` followed by the two assignments of gpu_transform_sdfg.py
lines 255-257 and 267-269: same descriptor with device storage, transient. -/
def cloneToGpu (d : GDesc) : GDesc :=
  { d with storage := .GPU_Global, transient := true }

/-- `sbs.Range.from_array(onode)` (line 278): the full extent, one unit-step
range covering each dimension. -/
def fullSubset (d : GDesc) : List (Int × Int × Int) :=
  d.shape.map (fun s => (0, s - 1, 1))

/-- One memlet on the chain returned by `state.memlet_tree(e)`, with the fields
the full-write check reads: the dynamic flag, the volume, and the element count
of its destination subset.  Volumes are modelled as integers, so the
partial-volume test `vol / size != floor(vol / size)` is exact divisibility. -/
structure WMemlet where
  dynamic : Bool
  volume : Int
  dstSubsetNumElements : Int
  deriving DecidableEq, Repr

/-- An in-edge of an access node, as the full-write search sees it: the data
name of the written access node, the destination subset of the edge, and the
memlet tree the edge belongs to. -/
structure WriteEdge where
  dstData : String
  dstSubset : List (Int × Int × Int)
  tree : List WMemlet
  deriving DecidableEq, Repr

/-- A state flattened to the write edges of its access nodes. -/
structure GState where
  writeEdges : List WriteEdge
  deriving DecidableEq, Repr

/-- The per-chain-edge test of gpu_transform_sdfg.py lines 286-291: the write
stays full only if no memlet on the tree is dynamic or moves a volume that is
not an integral multiple of its destination-subset size. -/
def wmemletFull (pe : WMemlet) : Bool :=
  !pe.dynamic && pe.volume % pe.dstSubsetNumElements == 0

/-- One write edge is a full-write witness for the array (lines 283-295). -/
def isFullWriteEdge (name : String) (full : List (Int × Int × Int)) (e : WriteEdge) : Bool :=
  e.dstData == name && e.dstSubset == full && e.tree.all wmemletFull

/-- The full-write search of gpu_transform_sdfg.py lines 277-297: scan every
state and every write to the array for a witness (the StopIteration escape
merely exits the scan at the first witness). -/
def foundFullWrite (states : List GState) (name : String)
    (full : List (Int × Int × Int)) : Bool :=
  states.any (fun st => st.writeEdges.any (isFullWriteEdge name full))

/-- A string of `n` underscores, used to generate candidate fresh names. -/
def underscores (n : Nat) : String := (⟨List.replicate n '_'⟩ : String)

/-- `sdfg.add_datadesc(name, desc, find_new_name=True)`, name part.  Modelled
from the spec: the descriptor-table mutation primitive guarantees name
uniqueness, choosing a fresh variant of the requested name when it is taken. -/
def freshName (base : String) (taken : List String) : String :=
  match (List.range (taken.length + 1)).find? (fun i => !taken.contains (base ++ underscores i)) with
  | some i => base ++ underscores i
  | none => base ++ underscores (taken.length + 1)

/-- The accumulator threaded through the cloning passes of Step 1
(gpu_transform_sdfg.py lines 246-299). -/
structure CloneAcc where
  data_already_on_gpu : List (String × Option String)
  cloned_arrays : List (String × String)
  arrays : List (String × GDesc)
  input_nodes : List (String × GDesc)
  deriving DecidableEq

/-- One iteration of the input cloning loop (lines 249-259): device-resident
arrays are only recorded, scalars stay on host, anything else gets a shadow
descriptor under a fresh name. -/
def cloneInputStep (acc : CloneAcc) (p : String × GDesc) : CloneAcc :=
  if p.2.storage = .GPU_Global then
    { acc with data_already_on_gpu := aset p.1 none acc.data_already_on_gpu }
  else if p.2.isScalar then acc
  else
    { acc with
      arrays := acc.arrays
        ++ [(freshName ("gpu_" ++ p.1) (acc.arrays.map Prod.fst), cloneToGpu p.2)],
      cloned_arrays := aset p.1 (freshName ("gpu_" ++ p.1) (acc.arrays.map Prod.fst))
        acc.cloned_arrays }

/-- One iteration of the output cloning loop (lines 261-299): device-resident
arrays are only recorded, names already cloned as inputs are skipped, anything
else gets a shadow descriptor; an output that is not also an input is then
appended to the copy-in list unless a full write to it exists. -/
def cloneOutputStep (states : List GState) (acc : CloneAcc) (p : String × GDesc) : CloneAcc :=
  if p.2.storage = .GPU_Global then
    { acc with data_already_on_gpu := aset p.1 none acc.data_already_on_gpu }
  else if (alookup p.1 acc.cloned_arrays).isSome then acc
  else if acc.input_nodes.contains p then
    { acc with
      arrays := acc.arrays
        ++ [(freshName ("gpu_" ++ p.1) (acc.arrays.map Prod.fst), cloneToGpu p.2)],
      cloned_arrays := aset p.1 (freshName ("gpu_" ++ p.1) (acc.arrays.map Prod.fst))
        acc.cloned_arrays }
  else if foundFullWrite states p.1 (fullSubset p.2) then
    { acc with
      arrays := acc.arrays
        ++ [(freshName ("gpu_" ++ p.1) (acc.arrays.map Prod.fst), cloneToGpu p.2)],
      cloned_arrays := aset p.1 (freshName ("gpu_" ++ p.1) (acc.arrays.map Prod.fst))
        acc.cloned_arrays }
  else
    { acc with
      arrays := acc.arrays
        ++ [(freshName ("gpu_" ++ p.1) (acc.arrays.map Prod.fst), cloneToGpu p.2)],
      cloned_arrays := aset p.1 (freshName ("gpu_" ++ p.1) (acc.arrays.map Prod.fst))
        acc.cloned_arrays,
      input_nodes := acc.input_nodes ++ [p] }

/-- Step 1 of `GPUTransformSDFG.apply` (lines 246-299): the two cloning passes,
iterating over the deduplicated input and output lists. -/
def clonePass (states : List GState) (inputs outputs : List (String × GDesc))
    (arrays : List (String × GDesc)) : CloneAcc :=
  let acc0 : CloneAcc := ⟨[], [], arrays, inputs⟩
  let acc1 := inputs.dedup.foldl cloneInputStep acc0
  outputs.dedup.foldl (cloneOutputStep states) acc1

/-- The invariant the cloning passes maintain: the clone mapping has unique
host names, the descriptor table has unique names, and device-resident arrays
are never cloned. -/
def cloneInv (full : List (String × GDesc)) (acc : CloneAcc) : Prop :=
  ((acc.cloned_arrays.map Prod.fst).Nodup)
  ∧ ((acc.arrays.map Prod.fst).Nodup)
  ∧ (∀ q ∈ full, q.2.storage = .GPU_Global → alookup q.1 acc.cloned_arrays = none)

/-- Concatenation of the shadow-binding lines of a pair list, later pairs in
front: the shape the prefix accumulation of replace.py lines 107-113 takes. -/
def shadowPrefix : List (String × String) → String
  | [] => ""
  | p :: ps => shadowPrefix ps ++ bindingLine p

/-- The first dotted component of a name (the part before the first dot; the
whole name when it has no dot). -/
def firstDotComponent (d : String) : String :=
  (⟨(splitOnChar '.' d.data).headI⟩ : String)

/-- Whether one symbol assignment qualifies for folding into a map dimension:
its symbol is free in the compute block and its value parses as a data access
with a subset into a known array (the kept case of cstmAssignStep). -/
def cstmQualifies (computeFree : List String) (arrays : List String)
    (p : String × String) : Bool :=
  computeFree.contains p.1 &&
    (match parseMemlet p.2 with
     | .ok m => m.subset.isSome && arrays.contains m.data
     | .error _ => false)

/-- One node visit of the phase-6 while loop (gpu_transform_sdfg.py lines
410-434): a free tasklet already claimed is skipped; otherwise the scalar
condition is evaluated against the current claimed set and marked scalars, and
on success the node is claimed and its scalars marked.  The condition function
abstracts the recursive scalar checks of lines 19-84 and 422-431, which read
only the graph, the claimed set and the marked-scalar set. -/
def scalarPassStep (cond : Finset Nat → Finset String → Nat → Bool × Finset String)
    (acc : Finset Nat × Finset String) (n : Nat) : Finset Nat × Finset String :=
  if n ∈ acc.1 then acc
  else if (cond acc.1 acc.2 n).1 then (insert n acc.1, acc.2 ∪ (cond acc.1 acc.2 n).2) else acc

/-- One full pass of the phase-6 while loop over the free code nodes. -/
def scalarOnePass (cond : Finset Nat → Finset String → Nat → Bool × Finset String)
    (nodes : List Nat) (st : Finset Nat × Finset String) : Finset Nat × Finset String :=
  nodes.foldl (scalarPassStep cond) st

/-- The `while changed` loop of phase 6 (lines 404-434), with explicit fuel:
the changed flag is set exactly when a pass claims a node, so the loop repeats
while the claimed set grows. -/
def scalarFixLoop (cond : Finset Nat → Finset String → Nat → Bool × Finset String)
    (nodes : List Nat) : Nat → Finset Nat × Finset String → Finset Nat × Finset String
  | 0, st => st
  | k + 1, st =>
    let st' := scalarOnePass cond nodes st
    if st'.1 = st.1 then st' else scalarFixLoop cond nodes k st'

/-! ## Shared lemmas about substitution -/

theorem subsOne_self (k : String) (e : Expr) : subsOne k (Expr.var k) e = e := by
  induction e with
  | var s => by_cases h : s = k <;> simp [subsOne, h]
  | intLit n => rfl
  | add a b iha ihb => simp [subsOne, iha, ihb]
  | mul a b iha ihb => simp [subsOne, iha, ihb]

theorem sympyDictSubs_single_id (e : Expr) (n : String) :
    sympyDictSubs e [(n, Expr.var n)] = e := by
  simp [sympyDictSubs, canonicalOrder, insertByKey, subsOne_self]

theorem filter_singleton_cases {α : Type} (p : α → Bool) (x : α) :
    [x].filter p = [] ∨ [x].filter p = [x] := by
  by_cases h : p x <;> simp [List.filter, h]

theorem internal_replace_id (e : Expr) (n : String) :
    internal_replace e [(n, Expr.var n)] = e := by
  simp only [internal_replace]
  rcases filter_singleton_cases (fun p => (extendedFreeSyms e).contains p.1)
      ((n, Expr.var n)) with h | h <;> rw [h]
  · rfl
  · simp [sympyDictSubs_single_id]

theorem replsymSubset_id (s : Subset) (n : String) :
    replsymSubset s [(n, Expr.var n)] = s := by
  show s.map _ = s
  rw [show s = s.map id from (List.map_id s).symm]
  rw [List.map_map]
  apply List.map_congr_left
  intro d _
  obtain ⟨a, b, c⟩ := d
  simp [internal_replace_id]

theorem memletReplaceData_id (m : Memlet) (n : String) :
    memletReplaceData m [(n, n)] = m := by
  obtain ⟨d?, s?, o?, v⟩ := m
  cases d? with
  | none => rfl
  | some d =>
    by_cases hd : n = d
    · subst hd
      simp [memletReplaceData, alookup]
    · simp [memletReplaceData, alookup, hd]

theorem memletReplaceSubset_id (m : Memlet) (n : String) :
    memletReplaceSubset m [(n, n)] [(n, Expr.var n)] = m := by
  obtain ⟨d?, s?, o?, v⟩ := m
  cases s? with
  | none => rfl
  | some s => simp [memletReplaceSubset, replsymSubset_id]

theorem memletReplaceOther_id (m : Memlet) (n : String) :
    memletReplaceOther m [(n, n)] [(n, Expr.var n)] = m := by
  obtain ⟨d?, s?, o?, v⟩ := m
  cases o? with
  | none => rfl
  | some s => simp [memletReplaceOther, replsymSubset_id]

theorem memletReplaceVolume_id (m : Memlet) (n : String) :
    memletReplaceVolume m [(n, n)] [(n, Expr.var n)] = m := by
  obtain ⟨d?, s?, o?, v⟩ := m
  simp [memletReplaceVolume, internal_replace_id]

theorem memletReplace_id (m : Memlet) (n : String) :
    memletReplace m [(n, n)] [(n, Expr.var n)] = m := by
  unfold memletReplace
  rw [memletReplaceData_id, memletReplaceSubset_id, memletReplaceOther_id, memletReplaceVolume_id]

theorem alookup_eq_none {α : Type} (k : String) (l : List (String × α)) :
    alookup k l = none ↔ k ∉ l.map Prod.fst := by
  induction l with
  | nil => simp [alookup]
  | cons p ps ih =>
    have hmc : (k ∉ (p :: ps).map Prod.fst) ↔ (¬ k = p.1 ∧ k ∉ ps.map Prod.fst) := by
      simp [List.mem_cons, not_or]
    by_cases h : p.1 = k
    · subst h
      simp [alookup, hmc]
    · have hk : ¬ k = p.1 := fun hh => h hh.symm
      simp [alookup, h, hmc, ih, hk]

theorem contains_eq_mem {α : Type} [BEq α] [LawfulBEq α] (l : List α) (a : α) :
    l.contains a = true ↔ a ∈ l := by
  induction l with
  | nil => simp
  | cons x xs ih =>
    simp only [List.contains_cons, Bool.or_eq_true, beq_iff_eq, ih, List.mem_cons]

theorem simultSubs_congr (l1 l2 : List (String × Expr)) (e : Expr)
    (h : ∀ s ∈ e.freeSyms, alookup s l1 = alookup s l2) :
    simultSubs l1 e = simultSubs l2 e := by
  induction e with
  | var s => simp only [simultSubs]; rw [h s (by simp [Expr.freeSyms])]
  | intLit n => rfl
  | add a b iha ihb =>
    simp only [simultSubs]
    rw [iha (fun s hs => h s (by simp [Expr.freeSyms, hs])),
        ihb (fun s hs => h s (by simp [Expr.freeSyms, hs]))]
  | mul a b iha ihb =>
    simp only [simultSubs]
    rw [iha (fun s hs => h s (by simp [Expr.freeSyms, hs])),
        ihb (fun s hs => h s (by simp [Expr.freeSyms, hs]))]

theorem simultSubs_no_keys (l : List (String × Expr)) (e : Expr)
    (h : ∀ s ∈ e.freeSyms, alookup s l = none) : simultSubs l e = e := by
  induction e with
  | var s => simp only [simultSubs]; rw [h s (by simp [Expr.freeSyms])]
  | intLit n => rfl
  | add a b iha ihb =>
    simp only [simultSubs]
    rw [iha (fun s hs => h s (by simp [Expr.freeSyms, hs])),
        ihb (fun s hs => h s (by simp [Expr.freeSyms, hs]))]
  | mul a b iha ihb =>
    simp only [simultSubs]
    rw [iha (fun s hs => h s (by simp [Expr.freeSyms, hs])),
        ihb (fun s hs => h s (by simp [Expr.freeSyms, hs]))]

theorem alookup_filter {α : Type} (l : List (String × α)) (P : String × α → Bool) (s : String)
    (h : ∀ p ∈ l, p.1 = s → P p = true) : alookup s (l.filter P) = alookup s l := by
  induction l with
  | nil => rfl
  | cons p ps ih =>
    by_cases hP : P p = true
    · rw [List.filter_cons_of_pos hP]
      by_cases hp : p.1 = s
      · simp [alookup, hp]
      · simp only [alookup, hp, if_false]
        exact ih (fun q hq => h q (List.mem_cons_of_mem _ hq))
    · rw [List.filter_cons_of_neg hP]
      have hp : p.1 ≠ s := fun hh => hP (h p (List.mem_cons_self _ _) hh)
      simp only [alookup, hp, if_false]
      exact ih (fun q hq => h q (List.mem_cons_of_mem _ hq))

theorem insertByKey_perm (p : String × Expr) (l : List (String × Expr)) :
    List.Perm (insertByKey p l) (p :: l) := by
  induction l with
  | nil => exact List.Perm.refl _
  | cons q qs ih =>
    simp only [insertByKey]
    split
    · exact List.Perm.refl _
    · exact List.Perm.trans (List.Perm.cons q ih) (List.Perm.swap p q qs)

theorem canonicalOrder_perm (l : List (String × Expr)) : List.Perm (canonicalOrder l) l := by
  induction l with
  | nil => exact List.Perm.refl _
  | cons p ps ih =>
    exact List.Perm.trans (insertByKey_perm p (canonicalOrder ps)) (List.Perm.cons p ih)

theorem alookup_perm {α : Type} {l1 l2 : List (String × α)} (h : List.Perm l1 l2)
    (hnd : (l1.map Prod.fst).Nodup) (k : String) : alookup k l1 = alookup k l2 := by
  induction h with
  | nil => rfl
  | cons x _ ih =>
    by_cases hx : x.1 = k
    · simp [alookup, hx]
    · simp only [alookup, hx, if_false]
      exact ih ((List.nodup_cons.mp hnd).2)
  | swap x y l =>
    simp only [List.map_cons] at hnd
    by_cases hy : y.1 = k <;> by_cases hx : x.1 = k
    · exfalso
      have h1 : y.1 ∉ (x.1 :: l.map Prod.fst) := (List.nodup_cons.mp hnd).1
      have h2 : y.1 = x.1 := hy.trans hx.symm
      rw [h2] at h1
      exact h1 (List.mem_cons_self _ _)
    · simp [alookup, hy, hx]
    · simp [alookup, hy, hx]
    · simp [alookup, hy, hx]
  | trans h1 h2 ih1 ih2 =>
    rw [ih1 hnd, ih2 ((h1.map Prod.fst).nodup_iff.mp hnd)]

theorem simultSubs_subsOne (k : String) (v : Expr) (l : List (String × Expr)) (e : Expr)
    (hv : ∀ s ∈ v.freeSyms, alookup s l = none) :
    simultSubs l (subsOne k v e) = simultSubs ((k, v) :: l) e := by
  induction e with
  | var s =>
    by_cases hs : s = k
    · subst hs
      simp only [subsOne, if_pos rfl, simultSubs, alookup, if_pos rfl]
      exact simultSubs_no_keys l v hv
    · simp only [subsOne, if_neg hs, simultSubs, alookup]
      rw [if_neg (fun hh => hs hh.symm)]
  | intLit n => rfl
  | add a b iha ihb => simp only [subsOne, simultSubs]; rw [iha, ihb]
  | mul a b iha ihb => simp only [subsOne, simultSubs]; rw [iha, ihb]

theorem seq_eq_simult (l : List (String × Expr))
    (hval : ∀ p ∈ l, ∀ q ∈ l, q.1 ∉ p.2.freeSyms) (e : Expr) :
    l.foldl (fun acc p => subsOne p.1 p.2 acc) e = simultSubs l e := by
  induction l generalizing e with
  | nil => simp [simultSubs_no_keys [] e (fun s _ => rfl)]
  | cons p ps ih =>
    have hval' : ∀ a ∈ ps, ∀ q ∈ ps, q.1 ∉ a.2.freeSyms := fun a ha q hq =>
      hval a (List.mem_cons_of_mem _ ha) q (List.mem_cons_of_mem _ hq)
    have hv : ∀ s ∈ p.2.freeSyms, alookup s ps = none := by
      intro s hs
      rw [alookup_eq_none]
      intro hmem
      obtain ⟨q, hq, hq1⟩ := List.mem_map.mp hmem
      exact hval p (List.mem_cons_self _ _) q (List.mem_cons_of_mem _ hq) (hq1 ▸ hs)
    calc (p :: ps).foldl (fun acc q => subsOne q.1 q.2 acc) e
        = ps.foldl (fun acc q => subsOne q.1 q.2 acc) (subsOne p.1 p.2 e) := rfl
      _ = simultSubs ps (subsOne p.1 p.2 e) := ih hval' _
      _ = simultSubs ((p.1, p.2) :: ps) e := simultSubs_subsOne p.1 p.2 ps e hv
      _ = simultSubs (p :: ps) e := rfl

/-! ## Claim theorems -/

/-- C1, counterexample: the engine applies the mapping a to b, b to a to the
expression a + b SEQUENTIALLY in canonical key order, so both former names
collapse to the single value a — it does not swap, contradicting the claim that
substitution is simultaneous for cyclic mappings. -/
theorem claim1_counterexample :
    internal_replace (Expr.add (.var "a") (.var "b")) [("a", Expr.var "b"), ("b", Expr.var "a")]
        = Expr.add (.var "a") (.var "a")
    ∧ internal_replace (Expr.add (.var "a") (.var "b")) [("a", Expr.var "b"), ("b", Expr.var "a")]
        ≠ simultSubs [("a", Expr.var "b"), ("b", Expr.var "a")] (Expr.add (.var "a") (.var "b")) := by
  decide

/-- C1, amended: the engine substitutes sequentially in canonical key order, so
for a mapping that does not chain — no replacement value mentions any key of
the mapping — the result coincides with simultaneous substitution; cyclic
mappings such as a to b, b to a chain and can collapse (see the
counterexample). -/
theorem claim1_amended (e : Expr) (repl : List (String × Expr))
    (hnd : (repl.map Prod.fst).Nodup)
    (hval : ∀ p ∈ repl, ∀ q ∈ repl, q.1 ∉ p.2.freeSyms) :
    internal_replace e repl = simultSubs repl e := by
  simp only [internal_replace]
  have hflt : ∀ s ∈ e.freeSyms,
      alookup s (repl.filter (fun p => (extendedFreeSyms e).contains p.1)) = alookup s repl := by
    intro s hs
    apply alookup_filter
    intro p _ hp1
    rw [hp1]
    exact (contains_eq_mem _ _).mpr (List.mem_append_left _ hs)
  by_cases hemp : (repl.filter (fun p => (extendedFreeSyms e).contains p.1)).isEmpty
  · rw [if_pos hemp]
    have hnil : repl.filter (fun p => (extendedFreeSyms e).contains p.1) = [] := by
      cases hh : repl.filter (fun p => (extendedFreeSyms e).contains p.1) with
      | nil => rfl
      | cons a l => rw [hh] at hemp; simp [List.isEmpty] at hemp
    symm
    apply simultSubs_no_keys
    intro s hs
    rw [← hflt s hs, hnil]
    rfl
  · rw [if_neg hemp]
    have hsub : ∀ p ∈ repl.filter (fun p => (extendedFreeSyms e).contains p.1), p ∈ repl :=
      fun p hp => List.mem_of_mem_filter hp
    have hndnr : ((repl.filter (fun p => (extendedFreeSyms e).contains p.1)).map Prod.fst).Nodup :=
      List.Nodup.sublist (List.Sublist.map _ (List.filter_sublist repl)) hnd
    have hco := canonicalOrder_perm (repl.filter (fun p => (extendedFreeSyms e).contains p.1))
    have hvalc : ∀ p ∈ canonicalOrder (repl.filter (fun p => (extendedFreeSyms e).contains p.1)),
        ∀ q ∈ canonicalOrder (repl.filter (fun p => (extendedFreeSyms e).contains p.1)),
        q.1 ∉ p.2.freeSyms := by
      intro p hp q hq
      exact hval p (hsub p (hco.mem_iff.mp hp)) q (hsub q (hco.mem_iff.mp hq))
    have hndc : ((canonicalOrder
        (repl.filter (fun p => (extendedFreeSyms e).contains p.1))).map Prod.fst).Nodup :=
      ((hco.map Prod.fst).nodup_iff).mpr hndnr
    calc sympyDictSubs e (repl.filter (fun p => (extendedFreeSyms e).contains p.1))
        = simultSubs (canonicalOrder (repl.filter (fun p => (extendedFreeSyms e).contains p.1))) e :=
          seq_eq_simult _ hvalc e
      _ = simultSubs (repl.filter (fun p => (extendedFreeSyms e).contains p.1)) e :=
          simultSubs_congr _ _ e (fun s _ => alookup_perm hco hndc s)
      _ = simultSubs repl e := simultSubs_congr _ _ e (fun s hs => hflt s hs)

/-- C1, witness: the amended theorem applied to the expression a + b and the
non-chaining rename a to x, b to y, where sequential and simultaneous
substitution agree. -/
theorem claim1_amended_witness :
    internal_replace (Expr.add (.var "a") (.var "b")) [("a", Expr.var "x"), ("b", Expr.var "y")]
      = simultSubs [("a", Expr.var "x"), ("b", Expr.var "y")] (Expr.add (.var "a") (.var "b")) :=
  claim1_amended (Expr.add (.var "a") (.var "b")) [("a", Expr.var "x"), ("b", Expr.var "y")]
    (by decide) (by decide)

/-- C2, counterexample: substituting the identity mapping n to n through the
dictionary-based entry point `replace_dict` does NOT leave a C++ tasklet
byte-for-byte unchanged: a shadow-binding line `auto n = n;` is prepended and n
is added to the ignored-symbols set. -/
theorem claim2_counterexample :
    replace_dict ⟨[.tasklet ⟨"t", ⟨.strCode "n = n + 1;", .CPP⟩, [], [], ∅⟩], []⟩ [("n", "n")]
        = .ok ⟨[.tasklet ⟨"t", ⟨.strCode "auto n = n;\nn = n + 1;", .CPP⟩, [], [], {"n"}⟩], []⟩
    ∧ replace_dict ⟨[.tasklet ⟨"t", ⟨.strCode "n = n + 1;", .CPP⟩, [], [], ∅⟩], []⟩ [("n", "n")]
        ≠ .ok ⟨[.tasklet ⟨"t", ⟨.strCode "n = n + 1;", .CPP⟩, [], [], ∅⟩], []⟩ := by
  constructor
  · decide
  · decide

/-- C2, amended: the single-pair entry point `replace` skips the whole
operation when old and new name coincide, so it is a complete no-op for every
graph; and under the dictionary-based entry point the identity mapping leaves
every memlet and every access node unchanged (only embedded C++ code bodies can
change, as the counterexample shows). -/
theorem claim2_amended :
    (∀ (g : Graph) (n : String), replace g n n = .ok g)
    ∧ (∀ (m : Memlet) (n : String), memletReplace m [(n, n)] [(n, pystr_to_symbolic n)] = m)
    ∧ (∀ (d n : String) (srepl : List (String × Expr)),
        replace_properties_dict (.access d) [(n, n)] srepl = .ok (.access d)) := by
  refine ⟨fun g n => by simp [replace], fun m n => memletReplace_id m n, fun d n srepl => ?_⟩
  by_cases h : n = d <;> simp [replace_properties_dict, alookup, h]

/-- C3, counterexample: renaming x to y via `replace_datadesc_names` when y is
already a key of the descriptor table does NOT fail: the operation completes
and silently overwrites the descriptor stored under y (descriptor 1 is lost),
contradicting the claimed failure with no partial mutation. -/
theorem claim3_counterexample :
    replace_datadesc_names ⟨[("x", 0), ("y", 1)], [], [], [], []⟩ [("x", "y")]
        = ⟨[("y", 0)], [], [], [], []⟩
    ∧ replace_datadesc_names ⟨[("x", 0), ("y", 1)], [], [], [], []⟩ [("x", "y")]
        ≠ ⟨[("x", 0), ("y", 1)], [], [], [], []⟩ := by
  constructor
  · decide
  · decide

theorem alookup_aset_self {α : Type} (k : String) (v : α) (l : List (String × α)) :
    alookup k (aset k v l) = some v := by
  induction l with
  | nil => simp [aset, alookup]
  | cons p ps ih =>
    by_cases hp : p.1 = k
    · show alookup k (if p.1 = k then (k, v) :: ps else p :: aset k v ps) = some v
      rw [if_pos hp]
      show (if k = k then some v else alookup k ps) = some v
      rw [if_pos rfl]
    · show alookup k (if p.1 = k then (k, v) :: ps else p :: aset k v ps) = some v
      rw [if_neg hp]
      show (if p.1 = k then some p.2 else alookup k (aset k v ps)) = some v
      rw [if_neg hp, ih]

theorem alookup_single_ne {α : Type} (x j : String) (v : α) (h : j ≠ x) :
    alookup j [(x, v)] = none := by
  show (if x = j then some v else alookup j []) = none
  rw [if_neg (fun hh : x = j => h hh.symm)]
  rfl

theorem alookup_aset_ne {α : Type} (j k : String) (v : α) (l : List (String × α))
    (h : j ≠ k) : alookup j (aset k v l) = alookup j l := by
  induction l with
  | nil => exact alookup_single_ne k j v h
  | cons p ps ih =>
    by_cases hp : p.1 = k
    · show alookup j (if p.1 = k then (k, v) :: ps else p :: aset k v ps) = _
      rw [if_pos hp]
      show (if k = j then some v else alookup j ps) = alookup j (p :: ps)
      rw [if_neg (fun hh : k = j => h hh.symm)]
      show alookup j ps = (if p.1 = j then some p.2 else alookup j ps)
      rw [if_neg (fun hh : p.1 = j => h (hp.symm.trans hh).symm)]
    · show alookup j (if p.1 = k then (k, v) :: ps else p :: aset k v ps) = _
      rw [if_neg hp]
      show (if p.1 = j then some p.2 else alookup j (aset k v ps))
        = (if p.1 = j then some p.2 else alookup j ps)
      by_cases hj : p.1 = j
      · rw [if_pos hj, if_pos hj]
      · rw [if_neg hj, if_neg hj, ih]

theorem mem_keys_aset {α : Type} (j k : String) (v : α) (l : List (String × α)) :
    j ∈ (aset k v l).map Prod.fst ↔ j = k ∨ j ∈ l.map Prod.fst := by
  induction l with
  | nil => simp [aset]
  | cons p ps ih =>
    by_cases hp : p.1 = k
    · show j ∈ ((if p.1 = k then (k, v) :: ps else p :: aset k v ps).map Prod.fst) ↔ _
      rw [if_pos hp]
      simp only [List.map_cons, List.mem_cons]
      rw [hp]
      tauto
    · show j ∈ ((if p.1 = k then (k, v) :: ps else p :: aset k v ps).map Prod.fst) ↔ _
      rw [if_neg hp]
      simp only [List.map_cons, List.mem_cons, ih]
      tauto

theorem aset_keys_nodup {α : Type} (k : String) (v : α) (l : List (String × α))
    (h : (l.map Prod.fst).Nodup) : ((aset k v l).map Prod.fst).Nodup := by
  induction l with
  | nil => simp [aset]
  | cons p ps ih =>
    simp only [List.map_cons, List.nodup_cons] at h
    by_cases hp : p.1 = k
    · show ((if p.1 = k then (k, v) :: ps else p :: aset k v ps).map Prod.fst).Nodup
      rw [if_pos hp]
      simp only [List.map_cons, List.nodup_cons]
      exact ⟨hp ▸ h.1, h.2⟩
    · show ((if p.1 = k then (k, v) :: ps else p :: aset k v ps).map Prod.fst).Nodup
      rw [if_neg hp]
      simp only [List.map_cons, List.nodup_cons]
      refine ⟨fun hmem => ?_, ih h.2⟩
      rcases (mem_keys_aset p.1 k v ps).mp hmem with h0 | h0
      · exact hp h0
      · exact h.1 h0

theorem alookup_decomp {α : Type} (x : String) (dx : α) (l : List (String × α))
    (h : alookup x l = some dx) :
    ∃ l1 l2, l = l1 ++ (x, dx) :: l2 ∧ ∀ p ∈ l1, p.1 ≠ x := by
  induction l with
  | nil => exact absurd h (by simp [alookup])
  | cons p ps ih =>
    by_cases hp : p.1 = x
    · rw [alookup, if_pos hp] at h
      obtain ⟨p1, p2⟩ := p
      obtain rfl : p1 = x := hp
      obtain rfl : p2 = dx := Option.some.inj h
      exact ⟨[], ps, rfl, by simp⟩
    · rw [alookup, if_neg hp] at h
      obtain ⟨l1, l2, heq, hne⟩ := ih h
      refine ⟨p :: l1, l2, by rw [heq]; rfl, ?_⟩
      intro q hq
      rcases List.mem_cons.mp hq with h0 | h0
      · rw [h0]; exact hp
      · exact hne q h0

theorem datadescFold_no_match (repl : List (String × String)) (s : List (String × Nat)) :
    ∀ acc, (∀ p ∈ s, alookup p.1 repl = none) → s.foldl (datadescStep repl) acc = acc := by
  induction s with
  | nil => intro acc _; rfl
  | cons p ps ih =>
    intro acc h
    rw [List.foldl_cons]
    have hstep : datadescStep repl acc p = acc := by
      unfold datadescStep
      rw [h p (List.mem_cons_self _ _)]
    rw [hstep]
    exact ih acc (fun q hq => h q (List.mem_cons_of_mem _ hq))

/-- The descriptor-repository loop for a single rename pair, in closed form:
the old key is deleted, the stored descriptor is assigned to the new key, and a
constant entry moves along. -/
theorem replaceDatadescTables_single (x y : String) (dx : Nat)
    (arrays constants : List (String × Nat))
    (hnd : (arrays.map Prod.fst).Nodup) (hdx : alookup x arrays = some dx) :
    replaceDatadescTables arrays constants [(x, y)]
      = (aset y dx (adel x arrays),
         match alookup x constants with
         | some c => adel x (aset y c constants)
         | none => constants) := by
  obtain ⟨l1, l2, heq, hne1⟩ := alookup_decomp x dx arrays hdx
  subst heq
  have hne2 : ∀ p ∈ l2, p.1 ≠ x := by
    intro p hp hpx
    simp only [List.map_append, List.map_cons] at hnd
    have h2 : ((x, dx).1 :: l2.map Prod.fst).Nodup := by
      simpa using (List.Nodup.of_append_right hnd)
    have hmem : p.1 ∈ l2.map Prod.fst := List.mem_map_of_mem Prod.fst hp
    exact (List.nodup_cons.mp h2).1 (hpx ▸ hmem)
  unfold replaceDatadescTables
  rw [List.foldl_append, List.foldl_cons]
  rw [datadescFold_no_match [(x, y)] l1 _ (fun p hp => alookup_single_ne x p.1 y (hne1 p hp))]
  have hstep : datadescStep [(x, y)] (l1 ++ (x, dx) :: l2, constants) (x, dx)
      = (aset y dx (adel x (l1 ++ (x, dx) :: l2)),
         match alookup x constants with
         | some c => adel x (aset y c constants)
         | none => constants) := by
    unfold datadescStep
    rw [show alookup (x, dx).1 [(x, y)] = some y from by rw [alookup, if_pos rfl]]
  rw [hstep]
  exact datadescFold_no_match [(x, y)] l2 _ (fun p hp => alookup_single_ne x p.1 y (hne2 p hp))

theorem alookup_adel_ne {α : Type} (j k : String) (l : List (String × α)) (h : j ≠ k) :
    alookup j (adel k l) = alookup j l := by
  induction l with
  | nil => rfl
  | cons p ps ih =>
    by_cases hp : p.1 = k
    · rw [adel, if_pos hp]
      have : ¬ p.1 = j := fun hh => h (hh ▸ hp.symm ▸ rfl)
      rw [alookup, if_neg (by rw [hp]; exact fun hh => h hh.symm)]
    · rw [adel, if_neg hp]
      by_cases hj : p.1 = j
      · rw [alookup, if_pos hj, alookup, if_pos hj]
      · rw [alookup, if_neg hj, alookup, if_neg hj, ih]

theorem adel_sublist {α : Type} (k : String) (l : List (String × α)) :
    List.Sublist (adel k l) l := by
  induction l with
  | nil => exact List.Sublist.refl _
  | cons p ps ih =>
    by_cases hp : p.1 = k
    · rw [adel, if_pos hp]
      exact List.sublist_cons_of_sublist p (List.Sublist.refl ps)
    · rw [adel, if_neg hp]
      exact List.Sublist.cons₂ p ih

theorem alookup_adel_self {α : Type} (k : String) (l : List (String × α))
    (hnd : (l.map Prod.fst).Nodup) : alookup k (adel k l) = none := by
  induction l with
  | nil => rfl
  | cons p ps ih =>
    simp only [List.map_cons, List.nodup_cons] at hnd
    by_cases hp : p.1 = k
    · rw [adel, if_pos hp, alookup_eq_none]
      rw [← hp]
      exact hnd.1
    · rw [adel, if_neg hp, alookup, if_neg hp]
      exact ih hnd.2

theorem splitOnChar_ne_nil (c : Char) (l : List Char) : splitOnChar c l ≠ [] := by
  induction l with
  | nil => simp [splitOnChar]
  | cons a as ih =>
    simp only [splitOnChar]
    split
    · simp
    · split
      · simp
      · simp

theorem splitOnChar_not_mem (c : Char) (l : List Char) (h : c ∉ l) :
    splitOnChar c l = [l] := by
  induction l with
  | nil => rfl
  | cons a as ih =>
    have ha : ¬ a = c := fun hh => h (hh ▸ List.mem_cons_self a as)
    have has : c ∉ as := fun hh => h (List.mem_cons_of_mem _ hh)
    simp only [splitOnChar, ih has]
    rw [if_neg ha]

theorem splitOnChar_head_append (c : Char) (l1 t : List Char) (h : c ∉ l1) :
    splitOnChar c (l1 ++ c :: t) = l1 :: splitOnChar c t := by
  induction l1 with
  | nil =>
    show splitOnChar c (c :: t) = [] :: splitOnChar c t
    simp only [splitOnChar]
    rw [if_pos trivial]
  | cons a as ih =>
    have ha : ¬ a = c := fun hh => h (hh ▸ List.mem_cons_self a as)
    have has : c ∉ as := fun hh => h (List.mem_cons_of_mem _ hh)
    show splitOnChar c (a :: (as ++ c :: t)) = (a :: as) :: splitOnChar c t
    simp only [splitOnChar, ih has]
    rw [if_neg ha]

theorem string_data_append (a b : String) : (a ++ b).data = a.data ++ b.data := rfl

theorem firstDotComponent_of_no_dot (d : String) (h : ¬ d.data.contains '.') :
    firstDotComponent d = d := by
  have hmem : '.' ∉ d.data := fun hh => h ((contains_eq_mem _ _).mpr hh)
  unfold firstDotComponent
  rw [splitOnChar_not_mem '.' d.data hmem]
  rfl

/-- The data-reference rewrite of the reduced-scope rename never leaves the old
name behind, neither as the whole reference nor as its first dotted component,
for a rename between distinct plain (dot-free) names. -/
theorem renameDataName_spec (x y d : String) (hxy : x ≠ y)
    (hx : ¬ x.data.contains '.') (hy : ¬ y.data.contains '.') :
    renameDataName [(x, y)] d ≠ x
    ∧ firstDotComponent (renameDataName [(x, y)] d) ≠ x := by
  have hynotdot : '.' ∉ y.data := fun hh => hy ((contains_eq_mem _ _).mpr hh)
  by_cases hxd : x = d
  · have hl : alookup d [(x, y)] = some y := by rw [alookup, if_pos hxd]
    have hr : renameDataName [(x, y)] d = y := by
      unfold renameDataName
      rw [hl]
    rw [hr]
    refine ⟨fun hh => hxy hh.symm, ?_⟩
    rw [firstDotComponent_of_no_dot y hy]
    exact fun hh => hxy hh.symm
  · have hl : alookup d [(x, y)] = none := alookup_single_ne x d y (fun hh => hxd hh.symm)
    by_cases hdot : d.data.contains '.' = true
    · cases hsp : splitOnChar '.' d.data with
      | nil => exact absurd hsp (splitOnChar_ne_nil '.' d.data)
      | cons p0 rest =>
        by_cases hp0 : x = (⟨p0⟩ : String)
        · have hl0 : alookup (⟨p0⟩ : String) [(x, y)] = some y := by
            rw [alookup, if_pos hp0]
          have hr : renameDataName [(x, y)] d = y ++ "." ++ (⟨joinWithDot rest⟩ : String) := by
            unfold renameDataName
            rw [hl, if_pos hdot, hsp]
            show (match alookup (⟨p0⟩ : String) [(x, y)] with
              | some v => v ++ "." ++ (⟨joinWithDot rest⟩ : String)
              | none => d) = _
            rw [hl0]
          have hdata : (y ++ "." ++ (⟨joinWithDot rest⟩ : String)).data
              = y.data ++ '.' :: joinWithDot rest := by
            rw [string_data_append, string_data_append]
            rw [List.append_assoc]
            rfl
          rw [hr]
          constructor
          · intro hh
            apply hx
            rw [← hh]
            apply (contains_eq_mem _ _).mpr
            rw [hdata]
            exact List.mem_append_right _ (List.mem_cons_self _ _)
          · unfold firstDotComponent
            rw [hdata, splitOnChar_head_append '.' y.data (joinWithDot rest) hynotdot]
            show (⟨y.data⟩ : String) ≠ x
            exact fun hh => hxy hh.symm
        · have hl0 : alookup (⟨p0⟩ : String) [(x, y)] = none :=
            alookup_single_ne x (⟨p0⟩ : String) y (fun hh => hp0 hh.symm)
          have hr : renameDataName [(x, y)] d = d := by
            unfold renameDataName
            rw [hl, if_pos hdot, hsp]
            show (match alookup (⟨p0⟩ : String) [(x, y)] with
              | some v => v ++ "." ++ (⟨joinWithDot rest⟩ : String)
              | none => d) = d
            rw [hl0]
          rw [hr]
          refine ⟨fun hh => hxd hh.symm, ?_⟩
          unfold firstDotComponent
          rw [hsp]
          exact fun hh => hp0 hh.symm
    · have hr : renameDataName [(x, y)] d = d := by
        unfold renameDataName
        rw [hl, if_neg hdot]
      rw [hr]
      refine ⟨fun hh => hxd hh.symm, ?_⟩
      rw [firstDotComponent_of_no_dot d hdot]
      exact fun hh => hxd hh.symm

/-- Identifier renaming by the AST visitor leaves no occurrence of the old
name. -/
theorem astFindReplace_not_free (x y : String) (hxy : x ≠ y) (em : Expr) :
    x ∉ (astFindReplace [(x, y)] em).freeSyms := by
  induction em with
  | var s =>
    by_cases hs : x = s
    · subst hs
      show x ∉ (match alookup x [(x, y)] with
        | some n => Expr.var n
        | none => Expr.var x).freeSyms
      rw [alookup, if_pos rfl]
      simp [Expr.freeSyms]
      exact hxy
    · show x ∉ (match alookup s [(x, y)] with
        | some n => Expr.var n
        | none => Expr.var s).freeSyms
      rw [alookup, if_neg hs]
      show x ∉ (Expr.var s).freeSyms
      simp [Expr.freeSyms]
      exact hs
  | intLit n => simp [astFindReplace, Expr.freeSyms]
  | add a b iha ihb =>
    show x ∉ ((astFindReplace [(x, y)] a).freeSyms ++ (astFindReplace [(x, y)] b).freeSyms)
    rw [List.mem_append]
    exact fun hh => hh.elim iha ihb
  | mul a b iha ihb =>
    show x ∉ ((astFindReplace [(x, y)] a).freeSyms ++ (astFindReplace [(x, y)] b).freeSyms)
    rw [List.mem_append]
    exact fun hh => hh.elim iha ihb

/-- C3, amended: renaming x to y via the reduced-scope rename moves the
descriptor-table entry and the constant-table entry to the new key, leaves no
access node or memlet referring to x (exactly or as a dotted prefix), and
renames every occurrence in control-edge assignments, conditions and meta
accesses; but when y is already a key of the descriptor table, the operation
does not fail — the old entry under y is silently overwritten. -/
theorem claim3_amended (sdfg : RSDFG) (x y : String) (dx : Nat)
    (hxy : x ≠ y)
    (hx : ¬ x.data.contains '.') (hy : ¬ y.data.contains '.')
    (hnda : (sdfg.arrays.map Prod.fst).Nodup)
    (hndc : (sdfg.constants_prop.map Prod.fst).Nodup)
    (hdx : alookup x sdfg.arrays = some dx) :
    alookup y (replace_datadesc_names sdfg [(x, y)]).arrays = some dx
    ∧ alookup x (replace_datadesc_names sdfg [(x, y)]).arrays = none
    ∧ (∀ c, alookup x sdfg.constants_prop = some c →
        alookup y (replace_datadesc_names sdfg [(x, y)]).constants_prop = some c
        ∧ alookup x (replace_datadesc_names sdfg [(x, y)]).constants_prop = none)
    ∧ (alookup x sdfg.constants_prop = none →
        (replace_datadesc_names sdfg [(x, y)]).constants_prop = sdfg.constants_prop)
    ∧ (∀ st ∈ (replace_datadesc_names sdfg [(x, y)]).states,
        (∀ d ∈ st.accessNodes, d ≠ x ∧ firstDotComponent d ≠ x)
        ∧ (∀ d? ∈ st.memletData, ∀ d, d? = some d → d ≠ x ∧ firstDotComponent d ≠ x))
    ∧ (∀ em ∈ (replace_datadesc_names sdfg [(x, y)]).metaAccesses, x ∉ em.freeSyms)
    ∧ (∀ ed ∈ (replace_datadesc_names sdfg [(x, y)]).interstateEdges,
        x ∉ ed.condition.freeSyms ∧ ∀ p ∈ ed.assignments, x ∉ p.2.freeSyms) := by
  have htab := replaceDatadescTables_single x y dx sdfg.arrays sdfg.constants_prop hnda hdx
  have harr : (replace_datadesc_names sdfg [(x, y)]).arrays
      = aset y dx (adel x sdfg.arrays) := by
    show (replaceDatadescTables sdfg.arrays sdfg.constants_prop [(x, y)]).1 = _
    rw [htab]
  have hconst : (replace_datadesc_names sdfg [(x, y)]).constants_prop
      = (match alookup x sdfg.constants_prop with
        | some c => adel x (aset y c sdfg.constants_prop)
        | none => sdfg.constants_prop) := by
    show (replaceDatadescTables sdfg.arrays sdfg.constants_prop [(x, y)]).2 = _
    rw [htab]
  refine ⟨?_, ?_, ?_, ?_, ?_, ?_, ?_⟩
  · rw [harr]
    exact alookup_aset_self y dx (adel x sdfg.arrays)
  · rw [harr, alookup_aset_ne x y dx _ hxy]
    exact alookup_adel_self x sdfg.arrays hnda
  · intro c hc
    rw [hconst, hc]
    constructor
    · rw [alookup_adel_ne y x _ (fun hh => hxy hh.symm)]
      exact alookup_aset_self y c sdfg.constants_prop
    · exact alookup_adel_self x _ (aset_keys_nodup y c sdfg.constants_prop hndc)
  · intro hc
    rw [hconst, hc]
  · intro st hst
    simp only [replace_datadesc_names, List.mem_map] at hst
    obtain ⟨st0, _, rfl⟩ := hst
    constructor
    · intro d hd
      simp only [List.mem_map] at hd
      obtain ⟨d0, _, rfl⟩ := hd
      exact renameDataName_spec x y d0 hxy hx hy
    · intro d? hd? d hd
      simp only [List.mem_map] at hd?
      obtain ⟨d0?, _, rfl⟩ := hd?
      cases d0? with
      | none => cases hd
      | some d0 =>
        obtain rfl : renameDataName [(x, y)] d0 = d := Option.some.inj hd
        exact renameDataName_spec x y d0 hxy hx hy
  · intro em hem
    simp only [replace_datadesc_names, List.mem_map] at hem
    obtain ⟨em0, _, rfl⟩ := hem
    exact astFindReplace_not_free x y hxy em0
  · intro ed hed
    simp only [replace_datadesc_names, List.mem_map] at hed
    obtain ⟨ed0, _, rfl⟩ := hed
    constructor
    · exact astFindReplace_not_free x y hxy ed0.condition
    · intro p hp
      simp only [interstateEdgeReplaceDict, List.mem_map] at hp
      obtain ⟨p0, _, rfl⟩ := hp
      exact astFindReplace_not_free x y hxy p0.2

/-- C3, witness: the amended theorem applied to a graph holding descriptors x
and y (y is overwritten), a constant for x, an access node x.f and a memlet x,
a meta access reading x and a control edge assigning from x. -/
theorem claim3_amended_witness :
    alookup "y" (replace_datadesc_names
        ⟨[("x", 0), ("y", 1)], [("x", 7)], [⟨["x.f"], [some "x"]⟩],
          [⟨[("s", Expr.var "x")], Expr.var "x"⟩], [Expr.var "x"]⟩ [("x", "y")]).arrays = some 0
    ∧ alookup "x" (replace_datadesc_names
        ⟨[("x", 0), ("y", 1)], [("x", 7)], [⟨["x.f"], [some "x"]⟩],
          [⟨[("s", Expr.var "x")], Expr.var "x"⟩], [Expr.var "x"]⟩ [("x", "y")]).arrays = none
    ∧ (∀ c, alookup "x" ([("x", 7)] : List (String × Nat)) = some c →
        alookup "y" (replace_datadesc_names
          ⟨[("x", 0), ("y", 1)], [("x", 7)], [⟨["x.f"], [some "x"]⟩],
            [⟨[("s", Expr.var "x")], Expr.var "x"⟩], [Expr.var "x"]⟩ [("x", "y")]).constants_prop = some c
        ∧ alookup "x" (replace_datadesc_names
          ⟨[("x", 0), ("y", 1)], [("x", 7)], [⟨["x.f"], [some "x"]⟩],
            [⟨[("s", Expr.var "x")], Expr.var "x"⟩], [Expr.var "x"]⟩ [("x", "y")]).constants_prop = none)
    ∧ (alookup "x" ([("x", 7)] : List (String × Nat)) = none →
        (replace_datadesc_names
          ⟨[("x", 0), ("y", 1)], [("x", 7)], [⟨["x.f"], [some "x"]⟩],
            [⟨[("s", Expr.var "x")], Expr.var "x"⟩], [Expr.var "x"]⟩ [("x", "y")]).constants_prop
          = [("x", 7)])
    ∧ (∀ st ∈ (replace_datadesc_names
          ⟨[("x", 0), ("y", 1)], [("x", 7)], [⟨["x.f"], [some "x"]⟩],
            [⟨[("s", Expr.var "x")], Expr.var "x"⟩], [Expr.var "x"]⟩ [("x", "y")]).states,
        (∀ d ∈ st.accessNodes, d ≠ "x" ∧ firstDotComponent d ≠ "x")
        ∧ (∀ d? ∈ st.memletData, ∀ d, d? = some d → d ≠ "x" ∧ firstDotComponent d ≠ "x"))
    ∧ (∀ em ∈ (replace_datadesc_names
          ⟨[("x", 0), ("y", 1)], [("x", 7)], [⟨["x.f"], [some "x"]⟩],
            [⟨[("s", Expr.var "x")], Expr.var "x"⟩], [Expr.var "x"]⟩ [("x", "y")]).metaAccesses,
        "x" ∉ em.freeSyms)
    ∧ (∀ ed ∈ (replace_datadesc_names
          ⟨[("x", 0), ("y", 1)], [("x", 7)], [⟨["x.f"], [some "x"]⟩],
            [⟨[("s", Expr.var "x")], Expr.var "x"⟩], [Expr.var "x"]⟩ [("x", "y")]).interstateEdges,
        "x" ∉ ed.condition.freeSyms ∧ ∀ p ∈ ed.assignments, "x" ∉ p.2.freeSyms) :=
  claim3_amended
    ⟨[("x", 0), ("y", 1)], [("x", 7)], [⟨["x.f"], [some "x"]⟩],
      [⟨[("s", Expr.var "x")], Expr.var "x"⟩], [Expr.var "x"]⟩ "x" "y" 0
    (by decide) (by decide) (by decide) (by decide) (by decide) (by decide)

/-- C4, counterexample: `can_be_applied` on a candidate whose connecting edge
carries NO qualifying assignment (the edge has no assignments at all) returns
true when an earlier call left an entry in the class-level shared map_symbols
dictionary — the result is not independent of earlier calls, contradicting the
claim. -/
theorem claim4_counterexample :
    can_be_applied ⟨none, [("z", ⟨"A", some "i"⟩)]⟩ 0 1
        ⟨["A"], [], [⟨0, []⟩, ⟨1, []⟩], [⟨0, 1, []⟩]⟩
      = .ok (true, ⟨some ⟨0, 1, []⟩, [("z", ⟨"A", some "i"⟩)]⟩) := by
  decide

theorem aset_ne_nil {α : Type} (k : String) (v : α) (l : List (String × α)) :
    aset k v l ≠ [] := by
  cases l with
  | nil => simp [aset]
  | cons p ps =>
    simp only [aset]
    split <;> simp

/-- Case analysis of one step of the assignment loop: the accumulator is
extended exactly when the assignment qualifies. -/
theorem cstmAssignStep_cases (computeFree arrays : List String)
    (acc : List (String × ParsedMemlet)) (p : String × String) :
    (cstmQualifies computeFree arrays p = true
      ∧ ∃ m, parseMemlet p.2 = .ok m
        ∧ cstmAssignStep computeFree arrays acc p = aset p.1 m acc)
    ∨ (cstmQualifies computeFree arrays p = false
        ∧ cstmAssignStep computeFree arrays acc p = acc) := by
  by_cases h1 : computeFree.contains p.1 = true
  · have hm1 : p.1 ∈ computeFree := (contains_eq_mem computeFree p.1).mp h1
    cases hp : parseMemlet p.2 with
    | ok m =>
      cases hsub : m.subset.isSome with
      | false =>
        refine Or.inr ⟨by simp [cstmQualifies, hp, hsub], by simp [cstmAssignStep, hp, hsub, hm1]⟩
      | true =>
        cases hdat : arrays.contains m.data with
        | false =>
          have hmd : m.data ∉ arrays := fun hh => by
            rw [(contains_eq_mem arrays m.data).mpr hh] at hdat
            exact Bool.true_eq_false.mp hdat
          refine Or.inr ⟨by simp [cstmQualifies, hp, hsub, hmd],
            by simp [cstmAssignStep, hp, hsub, hmd, hm1]⟩
        | true =>
          have hmd : m.data ∈ arrays := (contains_eq_mem arrays m.data).mp hdat
          refine Or.inl ⟨by simp [cstmQualifies, hp, hsub, hmd, hm1], m, rfl,
            by simp [cstmAssignStep, hp, hsub, hmd, hm1]⟩
    | error err =>
      refine Or.inr ⟨by simp [cstmQualifies, hp], by simp [cstmAssignStep, hp, hm1]⟩
  · have hm1 : p.1 ∉ computeFree := fun hh => h1 ((contains_eq_mem computeFree p.1).mpr hh)
    refine Or.inr ⟨by simp [cstmQualifies, hm1], by simp [cstmAssignStep, hm1]⟩

/-- The assignment loop leaves the accumulator empty exactly when it was empty
and no assignment qualifies. -/
theorem cstm_foldl_nil_iff (computeFree arrays : List String)
    (l : List (String × String)) :
    ∀ acc, (l.foldl (cstmAssignStep computeFree arrays) acc = []
      ↔ (acc = [] ∧ ∀ p ∈ l, cstmQualifies computeFree arrays p = false)) := by
  induction l with
  | nil => intro acc; simp
  | cons p ps ih =>
    intro acc
    rcases cstmAssignStep_cases computeFree arrays acc p with ⟨hq, m, _, hstep⟩ | ⟨hq, hstep⟩
    · rw [List.foldl_cons, hstep]
      constructor
      · intro h
        obtain ⟨hnil, _⟩ := (ih (aset p.1 m acc)).mp h
        exact absurd hnil (aset_ne_nil p.1 m acc)
      · rintro ⟨_, hall⟩
        exact absurd (hall p (List.mem_cons_self _ _)) (by simp [hq])
    · rw [List.foldl_cons, hstep, ih acc]
      constructor
      · rintro ⟨hnil, hall⟩
        refine ⟨hnil, fun q hq' => ?_⟩
        rcases List.mem_cons.mp hq' with h | h
        · rw [h]; exact hq
        · exact hall q h
      · rintro ⟨hnil, hall⟩
        exact ⟨hnil, fun q hq' => hall q (List.mem_cons_of_mem _ hq')⟩

/-- C4, amended: starting from an EMPTY accumulated class-level state,
`can_be_applied` returns true exactly when at least one assignment on the
matched control edge qualifies (symbol free in the compute block, value a data
access with a subset into a known array); the stated equivalence of the claim
holds only under that freshness assumption, since the shared dictionary is
never cleared between calls. -/
theorem claim4_amended (scratch : CSTMScratch) (ss cs : Nat) (sdfg : CSDFG) (e : CEdge)
    (hms : scratch.map_symbols = [])
    (hsink : ¬ (outEdges sdfg cs).length ≠ 0)
    (hedge : (outEdges sdfg ss).find? (fun e => e.dst = cs) = some e) :
    ∃ scratch' : CSTMScratch,
      can_be_applied scratch ss cs sdfg
        = .ok (e.assignments.any (cstmQualifies (stateFreeSyms sdfg cs) sdfg.arrays), scratch') := by
  unfold can_be_applied
  rw [if_neg hsink, hedge]
  refine ⟨⟨some e, e.assignments.foldl (cstmAssignStep (stateFreeSyms sdfg cs) sdfg.arrays)
      scratch.map_symbols⟩, ?_⟩
  show Except.ok
      ((e.assignments.foldl (cstmAssignStep (stateFreeSyms sdfg cs) sdfg.arrays)
          scratch.map_symbols).length != 0,
        (⟨some e, e.assignments.foldl (cstmAssignStep (stateFreeSyms sdfg cs) sdfg.arrays)
          scratch.map_symbols⟩ : CSTMScratch))
    = Except.ok
        (e.assignments.any (cstmQualifies (stateFreeSyms sdfg cs) sdfg.arrays),
          (⟨some e, e.assignments.foldl (cstmAssignStep (stateFreeSyms sdfg cs) sdfg.arrays)
            scratch.map_symbols⟩ : CSTMScratch))
  refine congrArg Except.ok (Prod.ext ?_ rfl)
  rw [hms]
  by_cases hq : e.assignments.any (cstmQualifies (stateFreeSyms sdfg cs) sdfg.arrays) = true
  · rw [hq]
    have hne : e.assignments.foldl (cstmAssignStep (stateFreeSyms sdfg cs) sdfg.arrays) [] ≠ [] := by
      intro hnil
      obtain ⟨_, hall⟩ := (cstm_foldl_nil_iff _ _ e.assignments []).mp hnil
      obtain ⟨q, hqmem, hqq⟩ := List.any_eq_true.mp hq
      exact absurd (hall q hqmem) (by simp [hqq])
    cases hl : e.assignments.foldl (cstmAssignStep (stateFreeSyms sdfg cs) sdfg.arrays) [] with
    | nil => exact absurd hl hne
    | cons a as => rfl
  · have hq' := Bool.eq_false_iff.mpr hq
    rw [hq']
    have hnil : e.assignments.foldl (cstmAssignStep (stateFreeSyms sdfg cs) sdfg.arrays) [] = [] := by
      rw [cstm_foldl_nil_iff]
      refine ⟨rfl, fun p hp => ?_⟩
      by_cases hc : cstmQualifies (stateFreeSyms sdfg cs) sdfg.arrays p = true
      · exact absurd (List.any_eq_true.mpr ⟨p, hp, hc⟩) hq
      · exact Bool.eq_false_iff.mpr hc
    rw [hnil]
    rfl

/-- C4, witness: the amended theorem at a fresh state and a candidate whose
edge assigns i from the data access A of j, which qualifies, so the call
returns true. -/
theorem claim4_amended_witness :
    ∃ scratch' : CSTMScratch,
      can_be_applied ⟨none, []⟩ 0 1 ⟨["A"], [], [⟨0, []⟩, ⟨1, ["i"]⟩], [⟨0, 1, [("i", "A[j]")]⟩]⟩
        = .ok (true, scratch') := by
  have h := claim4_amended ⟨none, []⟩ 0 1
    ⟨["A"], [], [⟨0, []⟩, ⟨1, ["i"]⟩], [⟨0, 1, [("i", "A[j]")]⟩]⟩ ⟨0, 1, [("i", "A[j]")]⟩
    rfl (by decide) (by decide)
  have hb : ((⟨0, 1, [("i", "A[j]")]⟩ : CEdge).assignments.any
      (cstmQualifies (stateFreeSyms ⟨["A"], [], [⟨0, []⟩, ⟨1, ["i"]⟩], [⟨0, 1, [("i", "A[j]")]⟩]⟩ 1)
        (⟨["A"], [], [⟨0, []⟩, ⟨1, ["i"]⟩], [⟨0, 1, [("i", "A[j]")]⟩]⟩ : CSDFG).arrays)) = true := by
    decide
  rw [hb] at h
  exact h

/-- C5, counterexample: after the cleanup loop of `apply`, the declaration of a
folded symbol s is removed from the symbol table even though s is still
referenced in another block of the graph (it is free in the block with id 2),
contradicting the claim that a still-referenced declaration is kept. -/
theorem claim5_counterexample :
    applySymbolCleanup [("s", ⟨"A", some "i"⟩)] ⟨0, 1, [("s", "A[i]")]⟩ [("s", 0)]
        = .ok (⟨0, 1, []⟩, [])
    ∧ symbolReferenced ⟨[], [("s", 0)], [⟨2, ["s"]⟩], []⟩ "s" = true := by
  constructor
  · decide
  · decide

/-- C6, counterexample: rewriting a C++ tasklet that reads a (mapped to b) with
initially ignored symbol a prepends the one shadow binding, but the replaced
name a is ADDED to (kept in) the ignored-symbols set, not removed from it as
the claim states. -/
theorem claim6_counterexample :
    replace_properties_dict (.tasklet ⟨"t", ⟨.strCode "a + 1", .CPP⟩, [], [], {"a"}⟩)
        [("a", "b")] []
        = .ok (.tasklet ⟨"t", ⟨.strCode "auto a = b;\na + 1", .CPP⟩, [], [], {"a"}⟩)
    ∧ "a" ∈ (⟨"t", ⟨.strCode "auto a = b;\na + 1", .CPP⟩, [], [], {"a"}⟩ : Tasklet).ignored_symbols := by
  constructor
  · decide
  · decide

theorem strAppend_assoc (a b c : String) : (a ++ b) ++ c = a ++ (b ++ c) := by
  cases a with | mk ad =>
  cases b with | mk bd =>
  cases c with | mk cd =>
  show String.mk ((ad ++ bd) ++ cd) = String.mk (ad ++ (bd ++ cd))
  rw [List.append_assoc]

theorem strAppend_empty_left (a : String) : "" ++ a = a := rfl

theorem strAppend_empty_right (a : String) : a ++ "" = a := by
  cases a with | mk ad =>
  show String.mk (ad ++ []) = String.mk ad
  rw [List.append_nil]

theorem strAppend_eq_empty_iff (a b : String) : a ++ b = "" ↔ a = "" ∧ b = "" := by
  cases a with | mk ad =>
  cases b with | mk bd =>
  constructor
  · intro h
    have hd : ad ++ bd = ([] : List Char) := congrArg String.data h
    obtain ⟨h1, h2⟩ := List.append_eq_nil.mp hd
    exact ⟨congrArg String.mk h1, congrArg String.mk h2⟩
  · rintro ⟨h1, h2⟩
    have ha : ad = [] := congrArg String.data h1
    have hb : bd = [] := congrArg String.data h2
    subst ha
    subst hb
    rfl

theorem bindingLine_ne_empty (p : String × String) : bindingLine p ≠ "" := by
  intro h
  have h2 := ((strAppend_eq_empty_iff _ _).mp h).2
  exact absurd h2 (by decide)

theorem shadowPrefix_ne_empty (p : String × String) (ps : List (String × String)) :
    shadowPrefix (p :: ps) ≠ "" := by
  intro h
  exact bindingLine_ne_empty p ((strAppend_eq_empty_iff _ _).mp h).2

/-- The prefix-and-active-set accumulation of replace.py lines 107-113, in
closed form: the prefix is the concatenation of one binding line per mapped
name that is a token of the code, later pairs in front, and the active set is
the set of those names. -/
theorem cbFoldSpec (tok : List String) (l : List (String × String)) :
    ∀ acc : String × Finset String,
      l.foldl (fun acc p =>
          if tok.contains p.1 then (bindingLine p ++ acc.1, insert p.1 acc.2) else acc) acc
        = (shadowPrefix (l.filter (fun p => tok.contains p.1)) ++ acc.1,
           acc.2 ∪ ((l.filter (fun p => tok.contains p.1)).map Prod.fst).toFinset) := by
  induction l with
  | nil =>
    intro acc
    simp [shadowPrefix, strAppend_empty_left]
  | cons p ps ih =>
    intro acc
    by_cases hp : tok.contains p.1 = true
    · rw [List.foldl_cons, if_pos hp, ih, List.filter_cons, if_pos hp]
      refine Prod.ext ?_ ?_
      · show shadowPrefix _ ++ (bindingLine p ++ acc.1) = shadowPrefix (p :: _) ++ acc.1
        rw [shadowPrefix, strAppend_assoc]
      · show insert p.1 acc.2 ∪ _ = acc.2 ∪ ((p.1 :: _).toFinset)
        rw [List.toFinset_cons, Finset.union_insert, Finset.insert_union]
    · rw [List.foldl_cons, if_neg hp, ih, List.filter_cons, if_neg hp]

/-- The C++ branch of `replace_in_codeblock` in closed form: for non-empty text
the result is unchanged when no mapped name is tokenized, and otherwise the
shadow prefix is prepended and the active names join the ignored symbols. -/
theorem replace_in_codeblock_cpp (s : String) (hs : s ≠ "") (repl : List (String × String))
    (node : Option Tasklet) :
    replace_in_codeblock ⟨.strCode s, .CPP⟩ repl node
      = (if shadowPrefix (repl.filter (fun p => (tokenize_cpp s).contains p.1)) = "" then
          .ok (⟨.strCode s, .CPP⟩, node)
        else
          .ok (⟨.strCode (shadowPrefix (repl.filter (fun p => (tokenize_cpp s).contains p.1)) ++ s),
                .CPP⟩,
               node.map (fun t => { t with ignored_symbols := t.ignored_symbols ∪
                 ((repl.filter (fun p => (tokenize_cpp s).contains p.1)).map Prod.fst).toFinset }))) := by
  simp only [replace_in_codeblock, if_neg hs]
  rw [if_pos trivial]
  rw [cbFoldSpec (tokenize_cpp s) repl ("", ∅)]
  rw [strAppend_empty_right, Finset.empty_union]

/-- C5, amended: the cleanup loop of `apply` removes every folded symbol's
assignment from the control edge, and removes its graph-level declaration
whenever the symbol is declared — unconditionally, with no check that the
symbol is no longer referenced elsewhere; entries for other names are left
untouched. -/
theorem claim5_amended (ms : List (String × ParsedMemlet)) :
    ∀ (e : CEdge) (syms : List (String × Nat)),
      (e.assignments.map Prod.fst).Nodup →
      (syms.map Prod.fst).Nodup →
      (ms.map Prod.fst).Nodup →
      (∀ k ∈ ms.map Prod.fst, (alookup k e.assignments).isSome = true) →
      ∃ e' syms',
        applySymbolCleanup ms e syms = .ok (e', syms')
        ∧ (∀ k ∈ ms.map Prod.fst, alookup k e'.assignments = none ∧ alookup k syms' = none)
        ∧ (∀ j, j ∉ ms.map Prod.fst →
            alookup j e'.assignments = alookup j e.assignments
            ∧ alookup j syms' = alookup j syms) := by
  induction ms with
  | nil =>
    intro e syms _ _ _ _
    exact ⟨e, syms, rfl, by simp, fun j _ => ⟨rfl, rfl⟩⟩
  | cons p rest ih =>
    intro e syms hasg hsyms hnms hpop
    obtain ⟨k, m⟩ := p
    have hk : (alookup k e.assignments).isSome = true :=
      hpop k (by simp)
    have hpopeq : assignmentsPop k e.assignments = .ok (adel k e.assignments) := by
      unfold assignmentsPop
      rw [if_pos hk]
    simp only [List.map_cons, List.nodup_cons] at hnms
    have hred : applySymbolCleanup ((k, m) :: rest) e syms
        = applySymbolCleanup rest { e with assignments := adel k e.assignments }
            (if (alookup k syms).isSome then remove_symbol k syms else syms) := by
      unfold applySymbolCleanup
      rw [List.foldlM_cons]
      show (do
        let asg ← assignmentsPop k e.assignments
        let syms2 := if (alookup k syms).isSome then remove_symbol k syms else syms
        (return ({ e with assignments := asg }, syms2) : Except PyError _)) >>= _ = _
      rw [hpopeq]
      rfl
    have hsyms1 : (((if (alookup k syms).isSome then remove_symbol k syms
        else syms)).map Prod.fst).Nodup := by
      split
      · exact List.Nodup.sublist (List.Sublist.map Prod.fst (adel_sublist k syms)) hsyms
      · exact hsyms
    have hasg1 : ((adel k e.assignments).map Prod.fst).Nodup :=
      List.Nodup.sublist (List.Sublist.map Prod.fst (adel_sublist k e.assignments)) hasg
    have hpop1 : ∀ j ∈ rest.map Prod.fst, (alookup j (adel k e.assignments)).isSome = true := by
      intro j hj
      have hjk : j ≠ k := fun hh => hnms.1 (hh ▸ hj)
      rw [alookup_adel_ne j k _ hjk]
      exact hpop j (by simp [hj])
    obtain ⟨e', syms', heq, habs, hframe⟩ :=
      ih { e with assignments := adel k e.assignments }
        (if (alookup k syms).isSome then remove_symbol k syms else syms)
        hasg1 hsyms1 hnms.2 hpop1
    refine ⟨e', syms', hred.trans heq, ?_, ?_⟩
    · intro k0 hk0
      simp only [List.map_cons] at hk0
      rcases List.mem_cons.mp hk0 with h0 | h0
      · subst h0
        have hkr : k0 ∉ rest.map Prod.fst := hnms.1
        obtain ⟨hf1, hf2⟩ := hframe k0 hkr
        constructor
        · rw [hf1]
          exact alookup_adel_self k0 e.assignments hasg
        · rw [hf2]
          split
          · exact alookup_adel_self k0 syms hsyms
          · rename_i hnot
            cases hl : alookup k0 syms with
            | none => rfl
            | some v => rw [hl] at hnot; simp at hnot
      · obtain ⟨h1, h2⟩ := habs k0 h0
        exact ⟨h1, h2⟩
    · intro j hj
      have hjk : j ≠ k := fun hh => hj (by simp [hh])
      have hjr : j ∉ rest.map Prod.fst := fun hh => hj (by simp [hh])
      obtain ⟨hf1, hf2⟩ := hframe j hjr
      constructor
      · rw [hf1]
        exact alookup_adel_ne j k _ hjk
      · rw [hf2]
        split
        · exact alookup_adel_ne j k _ hjk
        · rfl

/-- C5, witness: the amended theorem at the folded symbol s, declared and
assigned on the edge: the assignment and the declaration are both gone. -/
theorem claim5_amended_witness :
    ∃ (e' : CEdge) (syms' : List (String × Nat)),
      applySymbolCleanup [("s", ⟨"A", some "i"⟩)] ⟨0, 1, [("s", "A[i]")]⟩ [("s", 0)]
          = .ok (e', syms')
      ∧ (∀ k ∈ ([("s", ⟨"A", some "i"⟩)] : List (String × ParsedMemlet)).map Prod.fst,
          alookup k e'.assignments = none ∧ alookup k syms' = none)
      ∧ (∀ j, j ∉ ([("s", ⟨"A", some "i"⟩)] : List (String × ParsedMemlet)).map Prod.fst →
          alookup j e'.assignments = alookup j ([("s", "A[i]")] : List (String × String))
          ∧ alookup j syms' = alookup j ([("s", 0)] : List (String × Nat))) :=
  claim5_amended [("s", ⟨"A", some "i"⟩)] ⟨0, 1, [("s", "A[i]")]⟩ [("s", 0)]
    (by decide) (by decide) (by decide) (by decide)

/-- C6, amended: rewriting a C++ tasklet prepends exactly one shadow-binding
statement per distinct mapped name actually tokenized in the text (names that
are input or output connectors are never shadowed), leaves the body otherwise
untouched as a suffix, and ADDS every shadowed name to the ignored-symbols set
(the claim said removed). -/
theorem claim6_amended (t : Tasklet) (s : String) (repl : List (String × String))
    (srepl : List (String × Expr))
    (hcode : t.code = ⟨.strCode s, .CPP⟩) (hs : s ≠ "")
    (hnd : (repl.map Prod.fst).Nodup) :
    (activeRepl t s repl ≠ [] →
      replace_properties_dict (.tasklet t) repl srepl
        = .ok (.tasklet { t with
            code := ⟨.strCode (shadowPrefix (activeRepl t s repl) ++ s), .CPP⟩,
            ignored_symbols :=
              t.ignored_symbols ∪ ((activeRepl t s repl).map Prod.fst).toFinset }))
    ∧ (activeRepl t s repl = [] →
        replace_properties_dict (.tasklet t) repl srepl = .ok (.tasklet t))
    ∧ ((activeRepl t s repl).map Prod.fst).Nodup
    ∧ (∀ k, k ∈ (activeRepl t s repl).map Prod.fst ↔
        ((∃ v, (k, v) ∈ repl) ∧ (tokenize_cpp s).contains k = true
          ∧ t.in_connectors.contains k = false ∧ t.out_connectors.contains k = false)) := by
  have hact : (reducedRepl t repl).filter (fun p => (tokenize_cpp s).contains p.1)
      = activeRepl t s repl := rfl
  have hmain : replace_properties_dict (.tasklet t) repl srepl
      = (match replace_in_codeblock t.code (reducedRepl t repl) (some t) with
        | .ok (cb, some t') => .ok (.tasklet { t' with code := cb })
        | .ok (cb, none) => .ok (.tasklet { t with code := cb })
        | .error e => .error e) := rfl
  refine ⟨?_, ?_, ?_, ?_⟩
  · intro hne
    have hpre : shadowPrefix (activeRepl t s repl) ≠ "" := by
      cases hA : activeRepl t s repl with
      | nil => exact absurd hA hne
      | cons p ps => exact shadowPrefix_ne_empty p ps
    rw [hmain, hcode, replace_in_codeblock_cpp s hs, hact, if_neg hpre]
    rfl
  · intro hz
    rw [hmain, hcode, replace_in_codeblock_cpp s hs, hact, hz,
        if_pos (show shadowPrefix ([] : List (String × String)) = "" from rfl)]
    show Except.ok (Node.tasklet { t with code := (⟨.strCode s, .CPP⟩ : CodeBlock) })
        = Except.ok (Node.tasklet t)
    rw [← hcode]
  · have hsl : List.Sublist (activeRepl t s repl) repl :=
      List.Sublist.trans (List.filter_sublist (reducedRepl t repl)) (List.filter_sublist repl)
    exact List.Nodup.sublist (List.Sublist.map Prod.fst hsl) hnd
  · intro k
    simp only [activeRepl, reducedRepl, List.mem_map, List.mem_filter]
    constructor
    · rintro ⟨p, ⟨⟨hp, hP⟩, hQ⟩, rfl⟩
      refine ⟨⟨p.2, hp⟩, hQ, ?_, ?_⟩
      · cases hc : t.in_connectors.contains p.1
        · rfl
        · rw [hc] at hP; simp at hP
      · cases hc : t.out_connectors.contains p.1
        · rfl
        · rw [hc] at hP; simp at hP
    · rintro ⟨⟨v, hv⟩, htok, hin, hout⟩
      refine ⟨(k, v), ⟨⟨hv, ?_⟩, htok⟩, rfl⟩
      show (!(t.in_connectors.contains k || t.out_connectors.contains k)) = true
      rw [hin, hout]
      rfl

/-- C6, witness: the amended theorem applied to a tasklet reading a and c with
input connector c and mapping a to b, c to d: only a is shadowed (c is a
connector), the body is kept as a suffix, and a joins the ignored symbols. -/
theorem claim6_amended_witness :
    replace_properties_dict (.tasklet ⟨"t", ⟨.strCode "a + c", .CPP⟩, ["c"], [], ∅⟩)
        [("a", "b"), ("c", "d")] []
      = .ok (.tasklet ⟨"t", ⟨.strCode "auto a = b;\na + c", .CPP⟩, ["c"], [], {"a"}⟩) := by
  have h := (claim6_amended ⟨"t", ⟨.strCode "a + c", .CPP⟩, ["c"], [], ∅⟩ "a + c"
    [("a", "b"), ("c", "d")] [] rfl (by decide) (by decide)).1 (by decide)
  rw [h]
  decide

/-- C7: substitution into a non-empty string code block of an unsupported
foreign dialect does not merely warn — the warning statement itself reads the
loop variables name and new_name that are never bound in that branch, so the
call raises a NameError.  The claim (and the spec) say the condition is
reported as a warning without unrelated failure; the code fails instead. -/
theorem claim7_nonCppRaisesNameError :
    replace_in_codeblock ⟨.strCode "y = x + 1;", .OpenCL⟩ [("x", "z")] none
      = .error .nameError := by
  decide

/-- C8: in the output cloning loop, a non-device-resident output that is not
also an input (not already cloned, not in the input list) is exempt from being
appended to the copy-in list if and only if a full-write witness exists; and
the only possible change to the input list is appending that one array. -/
theorem claim8_full_write_exemption (states : List GState) (acc : CloneAcc) (p : String × GDesc)
    (hstor : p.2.storage ≠ .GPU_Global)
    (hcl : alookup p.1 acc.cloned_arrays = none)
    (hin : p ∉ acc.input_nodes) :
    ((p ∈ (cloneOutputStep states acc p).input_nodes)
      ↔ foundFullWrite states p.1 (fullSubset p.2) = false)
    ∧ ((cloneOutputStep states acc p).input_nodes = acc.input_nodes
        ∨ (cloneOutputStep states acc p).input_nodes = acc.input_nodes ++ [p]) := by
  have hclb : ¬ (alookup p.1 acc.cloned_arrays).isSome = true := by
    rw [hcl]
    simp
  have hinb : ¬ (acc.input_nodes.contains p) = true := fun hh =>
    hin ((contains_eq_mem _ _).mp hh)
  by_cases hw : foundFullWrite states p.1 (fullSubset p.2) = true
  · have hres : (cloneOutputStep states acc p).input_nodes = acc.input_nodes := by
      unfold cloneOutputStep
      rw [if_neg hstor, if_neg hclb, if_neg hinb, if_pos hw]
    rw [hres, hw]
    refine ⟨⟨fun hh => absurd hh hin, fun hh => absurd hh (by simp)⟩, Or.inl rfl⟩
  · have hw' : foundFullWrite states p.1 (fullSubset p.2) = false := Bool.eq_false_iff.mpr hw
    have hres : (cloneOutputStep states acc p).input_nodes = acc.input_nodes ++ [p] := by
      unfold cloneOutputStep
      rw [if_neg hstor, if_neg hclb, if_neg hinb, if_neg hw]
    rw [hres, hw']
    refine ⟨⟨fun _ => rfl, fun _ => ?_⟩, Or.inr rfl⟩
    exact List.mem_append_right _ (List.mem_cons_self _ _)

/-- C8, witness: the exemption theorem at an output with a genuine full write
(one write edge covering the whole extent, static unit-ratio chain): the array
is exempt, so membership in the copy-in list is equivalent to false. -/
theorem claim8_full_write_exemption_witness :
    ((("o", (⟨.Default, false, false, [4]⟩ : GDesc))
        ∈ (cloneOutputStep [⟨[⟨"o", [(0, 3, 1)], [⟨false, 4, 4⟩]⟩]⟩] ⟨[], [], [], []⟩
            ("o", ⟨.Default, false, false, [4]⟩)).input_nodes)
      ↔ foundFullWrite [⟨[⟨"o", [(0, 3, 1)], [⟨false, 4, 4⟩]⟩]⟩] "o"
          (fullSubset (⟨.Default, false, false, [4]⟩ : GDesc)) = false)
    ∧ ((cloneOutputStep [⟨[⟨"o", [(0, 3, 1)], [⟨false, 4, 4⟩]⟩]⟩] ⟨[], [], [], []⟩
          ("o", ⟨.Default, false, false, [4]⟩)).input_nodes = []
        ∨ (cloneOutputStep [⟨[⟨"o", [(0, 3, 1)], [⟨false, 4, 4⟩]⟩]⟩] ⟨[], [], [], []⟩
          ("o", ⟨.Default, false, false, [4]⟩)).input_nodes
            = [] ++ [("o", ⟨.Default, false, false, [4]⟩)]) :=
  claim8_full_write_exemption [⟨[⟨"o", [(0, 3, 1)], [⟨false, 4, 4⟩]⟩]⟩] ⟨[], [], [], []⟩
    ("o", ⟨.Default, false, false, [4]⟩) (by decide) (by decide) (by decide)

theorem scalarPassStep_mono (cond : Finset Nat → Finset String → Nat → Bool × Finset String)
    (st : Finset Nat × Finset String) (n : Nat) :
    st.1 ⊆ (scalarPassStep cond st n).1 ∧ st.2 ⊆ (scalarPassStep cond st n).2 := by
  unfold scalarPassStep
  split
  · exact ⟨Finset.Subset.refl _, Finset.Subset.refl _⟩
  · split
    · exact ⟨Finset.subset_insert _ _, Finset.subset_union_left⟩
    · exact ⟨Finset.Subset.refl _, Finset.Subset.refl _⟩

theorem scalarOnePass_mono (cond : Finset Nat → Finset String → Nat → Bool × Finset String)
    (nodes : List Nat) :
    ∀ st, st.1 ⊆ (scalarOnePass cond nodes st).1 ∧ st.2 ⊆ (scalarOnePass cond nodes st).2 := by
  induction nodes with
  | nil => intro st; exact ⟨Finset.Subset.refl _, Finset.Subset.refl _⟩
  | cons n ns ih =>
    intro st
    have h1 := scalarPassStep_mono cond st n
    have h2 := ih (scalarPassStep cond st n)
    exact ⟨h1.1.trans h2.1, h1.2.trans h2.2⟩

theorem scalarOnePass_bound (cond : Finset Nat → Finset String → Nat → Bool × Finset String)
    (nodes : List Nat) :
    ∀ st, (scalarOnePass cond nodes st).1 ⊆ st.1 ∪ nodes.toFinset := by
  induction nodes with
  | nil => intro st; exact Finset.subset_union_left
  | cons n ns ih =>
    intro st
    have h2 := ih (scalarPassStep cond st n)
    have h1 : (scalarPassStep cond st n).1 ⊆ insert n st.1 := by
      unfold scalarPassStep
      split
      · exact Finset.subset_insert _ _
      · split
        · exact Finset.Subset.refl _
        · exact Finset.subset_insert _ _
    refine h2.trans (Finset.union_subset ?_ ?_)
    · refine h1.trans ?_
      intro a ha
      rcases Finset.mem_insert.mp ha with h | h
      · exact Finset.mem_union_right _ (by simp [h])
      · exact Finset.mem_union_left _ h
    · intro a ha
      exact Finset.mem_union_right _ (by simp [List.mem_toFinset.mp ha])

theorem scalarPassStep_frozen (cond : Finset Nat → Finset String → Nat → Bool × Finset String)
    (st : Finset Nat × Finset String) (n : Nat)
    (h : (scalarPassStep cond st n).1 = st.1) : scalarPassStep cond st n = st := by
  unfold scalarPassStep at h ⊢
  by_cases hmem : n ∈ st.1
  · rw [if_pos hmem]
  · rw [if_neg hmem] at h ⊢
    by_cases hc : (cond st.1 st.2 n).1 = true
    · rw [if_pos hc] at h
      have hins : insert n st.1 = st.1 := h
      exact absurd (hins ▸ Finset.mem_insert_self n st.1) hmem
    · rw [if_neg hc]

theorem scalarOnePass_frozen (cond : Finset Nat → Finset String → Nat → Bool × Finset String)
    (nodes : List Nat) :
    ∀ st, (scalarOnePass cond nodes st).1 = st.1 → scalarOnePass cond nodes st = st := by
  induction nodes with
  | nil => intro st _; rfl
  | cons n ns ih =>
    intro st h
    have h' : (scalarOnePass cond ns (scalarPassStep cond st n)).1 = st.1 := h
    have hsub1 := (scalarPassStep_mono cond st n).1
    have hsub2 := (scalarOnePass_mono cond ns (scalarPassStep cond st n)).1
    rw [h'] at hsub2
    have heq : (scalarPassStep cond st n).1 = st.1 := Finset.Subset.antisymm hsub2 hsub1
    have hfr := scalarPassStep_frozen cond st n heq
    show scalarOnePass cond ns (scalarPassStep cond st n) = st
    rw [hfr]
    apply ih
    rw [hfr] at h'
    exact h'

theorem scalarOnePass_decrease (cond : Finset Nat → Finset String → Nat → Bool × Finset String)
    (nodes : List Nat) (st : Finset Nat × Finset String)
    (h : (scalarOnePass cond nodes st).1 ≠ st.1) :
    (nodes.toFinset \ (scalarOnePass cond nodes st).1).card
      < (nodes.toFinset \ st.1).card := by
  have hmono := (scalarOnePass_mono cond nodes st).1
  have hbound := scalarOnePass_bound cond nodes st
  have hss : st.1 ⊂ (scalarOnePass cond nodes st).1 :=
    Finset.ssubset_iff_of_subset hmono |>.mpr (by
      rcases Finset.exists_of_ssubset (lt_of_le_of_ne hmono (fun hh => h hh.symm)) with ⟨a, ha1, ha2⟩
      exact ⟨a, ha1, ha2⟩)
  obtain ⟨a, ha1, ha2⟩ := Finset.exists_of_ssubset hss
  have hanodes : a ∈ nodes.toFinset := by
    rcases Finset.mem_union.mp (hbound ha1) with h0 | h0
    · exact absurd h0 ha2
    · exact h0
  apply Finset.card_lt_card
  constructor
  · exact Finset.sdiff_subset_sdiff (Finset.Subset.refl _) hmono
  · intro hcontra
    have := hcontra (Finset.mem_sdiff.mpr ⟨hanodes, ha2⟩)
    exact (Finset.mem_sdiff.mp this).2 ha1

theorem scalarFixLoop_reaches_fixpoint
    (cond : Finset Nat → Finset String → Nat → Bool × Finset String) (nodes : List Nat) :
    ∀ (fuel : Nat) (st : Finset Nat × Finset String),
      (nodes.toFinset \ st.1).card < fuel →
      scalarOnePass cond nodes (scalarFixLoop cond nodes fuel st)
        = scalarFixLoop cond nodes fuel st := by
  intro fuel
  induction fuel with
  | zero => intro st h; omega
  | succ k ih =>
    intro st h
    show scalarOnePass cond nodes
        (if (scalarOnePass cond nodes st).1 = st.1 then scalarOnePass cond nodes st
         else scalarFixLoop cond nodes k (scalarOnePass cond nodes st))
      = (if (scalarOnePass cond nodes st).1 = st.1 then scalarOnePass cond nodes st
         else scalarFixLoop cond nodes k (scalarOnePass cond nodes st))
    by_cases heq : (scalarOnePass cond nodes st).1 = st.1
    · rw [if_pos heq]
      have hfr := scalarOnePass_frozen cond nodes st heq
      rw [hfr]
      exact hfr
    · rw [if_neg heq]
      apply ih
      have hdec := scalarOnePass_decrease cond nodes st heq
      omega

/-- C9: the phase-6 while loop only grows the claimed-node set and the marked
scalar set, and it terminates: with fuel one larger than the number of scanned
nodes the loop has reached a fixed point — one more full pass changes
nothing — for every input graph and every scalar condition. -/
theorem claim9_scalar_fixpoint_terminates
    (cond : Finset Nat → Finset String → Nat → Bool × Finset String) (nodes : List Nat)
    (st : Finset Nat × Finset String) :
    st.1 ⊆ (scalarOnePass cond nodes st).1
    ∧ st.2 ⊆ (scalarOnePass cond nodes st).2
    ∧ scalarOnePass cond nodes (scalarFixLoop cond nodes (nodes.length + 1) st)
        = scalarFixLoop cond nodes (nodes.length + 1) st := by
  refine ⟨(scalarOnePass_mono cond nodes st).1, (scalarOnePass_mono cond nodes st).2, ?_⟩
  apply scalarFixLoop_reaches_fixpoint
  have h1 : (nodes.toFinset \ st.1).card ≤ nodes.toFinset.card :=
    Finset.card_le_card (Finset.sdiff_subset)
  have h2 : nodes.toFinset.card ≤ nodes.length := nodes.toFinset_card_le
  omega

theorem underscores_data (n : Nat) : (underscores n).data = List.replicate n '_' := rfl

theorem freshName_fresh (base : String) (taken : List String) :
    freshName base taken ∉ taken := by
  unfold freshName
  cases hf : (List.range (taken.length + 1)).find?
      (fun i => !taken.contains (base ++ underscores i)) with
  | some i =>
    have hp := List.find?_some hf
    intro hmem
    rw [(contains_eq_mem taken _).mpr hmem] at hp
    simp at hp
  | none =>
    exfalso
    have hall := List.find?_eq_none.mp hf
    have hmem : ∀ i ∈ List.range (taken.length + 1), (base ++ underscores i) ∈ taken := by
      intro i hi
      have hni := hall i hi
      have hb : taken.contains (base ++ underscores i) = true := by
        cases hc : taken.contains (base ++ underscores i)
        · exact absurd (by rw [hc]; rfl) hni
        · rfl
      exact (contains_eq_mem _ _).mp hb
    have hinj : ∀ i j : Nat, base ++ underscores i = base ++ underscores j → i = j := by
      intro i j hij
      have hd := congrArg String.data hij
      rw [string_data_append, string_data_append, underscores_data, underscores_data] at hd
      have hlen := congrArg List.length hd
      rw [List.length_append, List.length_append, List.length_replicate,
          List.length_replicate] at hlen
      omega
    have hnd : ((List.range (taken.length + 1)).map (fun i => base ++ underscores i)).Nodup :=
      List.Nodup.map_on (fun x _ y _ h => hinj x y h) (List.nodup_range _)
    have hsub : ((List.range (taken.length + 1)).map
        (fun i => base ++ underscores i)).toFinset ⊆ taken.toFinset := by
      intro a ha
      obtain ⟨i, hi, rfl⟩ := List.mem_map.mp (List.mem_toFinset.mp ha)
      exact List.mem_toFinset.mpr (hmem i hi)
    have hcard1 : ((List.range (taken.length + 1)).map
        (fun i => base ++ underscores i)).toFinset.card = taken.length + 1 := by
      rw [List.toFinset_card_of_nodup hnd]
      simp
    have hcard2 := Finset.card_le_card hsub
    have hcard3 : taken.toFinset.card ≤ taken.length := taken.toFinset_card_le
    omega

theorem cloneInputStep_inv (full : List (String × GDesc))
    (hfun : ∀ p ∈ full, ∀ q ∈ full, p.1 = q.1 → p.2 = q.2)
    (acc : CloneAcc) (p : String × GDesc) (hp : p ∈ full)
    (hI : cloneInv full acc) : cloneInv full (cloneInputStep acc p) := by
  obtain ⟨h1, h2, h3⟩ := hI
  unfold cloneInputStep
  by_cases hg : p.2.storage = .GPU_Global
  · rw [if_pos hg]
    exact ⟨h1, h2, h3⟩
  · rw [if_neg hg]
    by_cases hs : p.2.isScalar = true
    · rw [if_pos hs]
      exact ⟨h1, h2, h3⟩
    · rw [if_neg hs]
      refine ⟨aset_keys_nodup _ _ _ h1, ?_, ?_⟩
      · rw [List.map_append, List.nodup_append]
        refine ⟨h2, by simp, ?_⟩
        intro a ha hb
        simp only [List.map_cons, List.map_nil, List.mem_singleton] at hb
        subst hb
        exact freshName_fresh _ _ ha
      · intro q hq hqg
        have hne : q.1 ≠ p.1 := by
          intro hh
          have hqp := hfun q hq p hp hh
          rw [hqp] at hqg
          exact hg hqg
        show alookup q.1 (aset p.1 _ acc.cloned_arrays) = none
        rw [alookup_aset_ne q.1 p.1 _ _ hne]
        exact h3 q hq hqg

theorem cloneOutputStep_inv (states : List GState) (full : List (String × GDesc))
    (hfun : ∀ p ∈ full, ∀ q ∈ full, p.1 = q.1 → p.2 = q.2)
    (acc : CloneAcc) (p : String × GDesc) (hp : p ∈ full)
    (hI : cloneInv full acc) : cloneInv full (cloneOutputStep states acc p) := by
  obtain ⟨h1, h2, h3⟩ := hI
  unfold cloneOutputStep
  by_cases hg : p.2.storage = .GPU_Global
  · rw [if_pos hg]
    exact ⟨h1, h2, h3⟩
  · rw [if_neg hg]
    by_cases hc : (alookup p.1 acc.cloned_arrays).isSome = true
    · rw [if_pos hc]
      exact ⟨h1, h2, h3⟩
    · rw [if_neg hc]
      have hkey : cloneInv full
          { acc with
            arrays := acc.arrays ++ [(freshName ("gpu_" ++ p.1) (acc.arrays.map Prod.fst),
              cloneToGpu p.2)],
            cloned_arrays := aset p.1 (freshName ("gpu_" ++ p.1) (acc.arrays.map Prod.fst))
              acc.cloned_arrays } := by
        refine ⟨aset_keys_nodup _ _ _ h1, ?_, ?_⟩
        · rw [List.map_append, List.nodup_append]
          refine ⟨h2, by simp, ?_⟩
          intro a ha hb
          simp only [List.map_cons, List.map_nil, List.mem_singleton] at hb
          subst hb
          exact freshName_fresh _ _ ha
        · intro q hq hqg
          have hne : q.1 ≠ p.1 := by
            intro hh
            have hqp := hfun q hq p hp hh
            rw [hqp] at hqg
            exact hg hqg
          show alookup q.1 (aset p.1 _ acc.cloned_arrays) = none
          rw [alookup_aset_ne q.1 p.1 _ _ hne]
          exact h3 q hq hqg
      obtain ⟨k1, k2, k3⟩ := hkey
      split
      · exact ⟨k1, k2, k3⟩
      · split
        · exact ⟨k1, k2, k3⟩
        · exact ⟨k1, k2, k3⟩


theorem cloneFold_inv (full : List (String × GDesc)) (step : CloneAcc → (String × GDesc) → CloneAcc)
    (hstep : ∀ acc p, p ∈ full → cloneInv full acc → cloneInv full (step acc p)) :
    ∀ (l : List (String × GDesc)), (∀ p ∈ l, p ∈ full) →
      ∀ acc, cloneInv full acc → cloneInv full (l.foldl step acc) := by
  intro l
  induction l with
  | nil => intro _ acc hI; exact hI
  | cons p ps ih =>
    intro hl acc hI
    rw [List.foldl_cons]
    exact ih (fun q hq => hl q (List.mem_cons_of_mem _ hq))
      (step acc p) (hstep acc p (hl p (List.mem_cons_self _ _)) hI)

/-- C10: the cloning step of the device-offload transformation gives every host
array at most one device shadow (the clone mapping has unique host names, since
the output pass skips names already cloned as inputs), never clones an array
already on the accelerator, and preserves descriptor-name uniqueness, each
shadow being registered under a freshly chosen non-colliding name. -/
theorem claim10_clone_uniqueness (states : List GState)
    (inputs outputs arrays : List (String × GDesc))
    (hnd : (arrays.map Prod.fst).Nodup)
    (hfun : ∀ p ∈ inputs ++ outputs, ∀ q ∈ inputs ++ outputs, p.1 = q.1 → p.2 = q.2) :
    (((clonePass states inputs outputs arrays).cloned_arrays.map Prod.fst).Nodup)
    ∧ (((clonePass states inputs outputs arrays).arrays.map Prod.fst).Nodup)
    ∧ (∀ q ∈ inputs ++ outputs, q.2.storage = .GPU_Global →
        alookup q.1 (clonePass states inputs outputs arrays).cloned_arrays = none) := by
  have hbase : cloneInv (inputs ++ outputs) ⟨[], [], arrays, inputs⟩ :=
    ⟨by simp, hnd, fun q _ _ => rfl⟩
  have h1 := cloneFold_inv (inputs ++ outputs) cloneInputStep
    (fun acc p hp hI => cloneInputStep_inv (inputs ++ outputs) hfun acc p hp hI)
    inputs.dedup (fun p hp => List.mem_append_left _ (List.mem_dedup.mp hp))
    ⟨[], [], arrays, inputs⟩ hbase
  have h2 := cloneFold_inv (inputs ++ outputs) (cloneOutputStep states)
    (fun acc p hp hI => cloneOutputStep_inv states (inputs ++ outputs) hfun acc p hp hI)
    outputs.dedup (fun p hp => List.mem_append_right _ (List.mem_dedup.mp hp))
    (inputs.dedup.foldl cloneInputStep ⟨[], [], arrays, inputs⟩) h1
  exact h2

/-- C10, witness: the uniqueness theorem at one host input, one host output and
one output already on the accelerator: the device-resident one gets no clone,
and both name sets stay duplicate-free. -/
theorem claim10_clone_uniqueness_witness :
    (((clonePass [] [("i", ⟨.Default, false, false, [2]⟩)]
        [("o", ⟨.Default, false, false, [2]⟩), ("g", ⟨.GPU_Global, false, false, [2]⟩)]
        [("i", ⟨.Default, false, false, [2]⟩), ("o", ⟨.Default, false, false, [2]⟩),
          ("g", ⟨.GPU_Global, false, false, [2]⟩)]).cloned_arrays.map Prod.fst).Nodup)
    ∧ (((clonePass [] [("i", ⟨.Default, false, false, [2]⟩)]
        [("o", ⟨.Default, false, false, [2]⟩), ("g", ⟨.GPU_Global, false, false, [2]⟩)]
        [("i", ⟨.Default, false, false, [2]⟩), ("o", ⟨.Default, false, false, [2]⟩),
          ("g", ⟨.GPU_Global, false, false, [2]⟩)]).arrays.map Prod.fst).Nodup)
    ∧ (∀ q ∈ ([("i", (⟨.Default, false, false, [2]⟩ : GDesc))]
        ++ [("o", ⟨.Default, false, false, [2]⟩), ("g", ⟨.GPU_Global, false, false, [2]⟩)]),
        q.2.storage = .GPU_Global →
        alookup q.1 (clonePass [] [("i", ⟨.Default, false, false, [2]⟩)]
          [("o", ⟨.Default, false, false, [2]⟩), ("g", ⟨.GPU_Global, false, false, [2]⟩)]
          [("i", ⟨.Default, false, false, [2]⟩), ("o", ⟨.Default, false, false, [2]⟩),
            ("g", ⟨.GPU_Global, false, false, [2]⟩)]).cloned_arrays = none) :=
  claim10_clone_uniqueness [] [("i", ⟨.Default, false, false, [2]⟩)]
    [("o", ⟨.Default, false, false, [2]⟩), ("g", ⟨.GPU_Global, false, false, [2]⟩)]
    [("i", ⟨.Default, false, false, [2]⟩), ("o", ⟨.Default, false, false, [2]⟩),
      ("g", ⟨.GPU_Global, false, false, [2]⟩)]
    (by decide) (by decide)

end DaceModel
